import Mathlib

/-!
Verification of the angulus angle library (src/angle.rs, src/unbounded.rs,
src/float.rs) against its specification.

The Rust code stores angles as IEEE-754 binary floating-point numbers
(`f32` or `f64`) and is generic over a sealed `Float` trait providing the
constants `PI`, `TAU`, `ONE`, `DEG_TO_RAD`, `TURNS_TO_RAD`, `GRAD_TO_RAD`.
We model a binary floating-point datum exactly: a value is NaN, a signed
infinity, a signed zero, or a nonzero dyadic rational `M * 2^e` with
`|M| < 2^prec` and `emin ≤ e` (type `Fp` below).  Arithmetic is exact
rational arithmetic followed by rounding to nearest, ties to even, with
overflow to infinity and underflow toward zero, which is the IEEE-754
semantics of Rust's `+`, `-`, `*`, `/` on floats; `%` is Rust's (exact)
truncating remainder, and comparisons are IEEE comparisons (false on NaN).

Because the `Rat` operations of the standard library are `@[irreducible]`,
the model is written in terms of kernel-computable clones (`rmul`, `radd`,
...) built from `mkRat`; bridge lemmas identify them with the ordinary
field operations for the proofs.
-/

set_option exponentiation.threshold 5000
set_option maxRecDepth 4000

/-! ### Kernel-computable rational arithmetic -/

/-- Negation of a rational, computable by the kernel. -/
def rneg (a : ℚ) : ℚ := mkRat (-a.num) a.den

/-- Addition of rationals, computable by the kernel. -/
def radd (a b : ℚ) : ℚ := mkRat (a.num * b.den + b.num * a.den) (a.den * b.den)

/-- Subtraction of rationals, computable by the kernel. -/
def rsub (a b : ℚ) : ℚ := radd a (rneg b)

/-- Multiplication of rationals, computable by the kernel. -/
def rmul (a b : ℚ) : ℚ := mkRat (a.num * b.num) (a.den * b.den)

/-- Division of rationals, computable by the kernel (zero on zero divisor). -/
def rdiv (a b : ℚ) : ℚ := Rat.divInt (a.num * b.den) (a.den * b.num)

/-- Absolute value of a rational, computable by the kernel. -/
def rabs (a : ℚ) : ℚ := mkRat a.num.natAbs a.den

/-- The integer power `2^e` as a rational, computable by the kernel. -/
def pow2 (e : ℤ) : ℚ :=
  if 0 ≤ e then mkRat (((2 ^ e.toNat : ℕ) : ℤ)) 1 else mkRat 1 (2 ^ (-e).toNat)

theorem den_cast_ne_zero (a : ℚ) : (a.den : ℚ) ≠ 0 := by
  exact_mod_cast a.den_nz

theorem num_cast_eq (a : ℚ) : (a.num : ℚ) = a * a.den := by
  calc (a.num : ℚ) = (a.num / a.den) * a.den :=
        (div_mul_cancel₀ _ (den_cast_ne_zero a)).symm
    _ = a * a.den := by rw [Rat.num_div_den]

theorem rneg_eq (a : ℚ) : rneg a = -a := by
  rw [rneg, Rat.mkRat_eq_divInt, ← Rat.neg_divInt, Rat.num_divInt_den]

theorem radd_eq (a b : ℚ) : radd a b = a + b := by
  rw [radd, Rat.mkRat_eq_divInt, Rat.divInt_eq_div, div_eq_iff]
  · push_cast
    rw [num_cast_eq a, num_cast_eq b]
    ring
  · push_cast
    exact mul_ne_zero (den_cast_ne_zero a) (den_cast_ne_zero b)

theorem rsub_eq (a b : ℚ) : rsub a b = a - b := by
  rw [rsub, radd_eq, rneg_eq, sub_eq_add_neg]

theorem rmul_eq (a b : ℚ) : rmul a b = a * b := by
  rw [rmul, Rat.mkRat_eq_divInt, Rat.divInt_eq_div, div_eq_iff]
  · push_cast
    rw [num_cast_eq a, num_cast_eq b]
    ring
  · push_cast
    exact mul_ne_zero (den_cast_ne_zero a) (den_cast_ne_zero b)

theorem rdiv_eq (a b : ℚ) : rdiv a b = a / b := by
  rcases eq_or_ne b 0 with hb | hb
  · subst hb
    simp [rdiv]
  · have hnum : (b.num : ℚ) ≠ 0 := by
      exact_mod_cast Rat.num_ne_zero.mpr hb
    rw [rdiv, Rat.divInt_eq_div, div_eq_div_iff]
    · push_cast
      rw [num_cast_eq a, num_cast_eq b]
      ring
    · push_cast
      exact mul_ne_zero (den_cast_ne_zero a) hnum
    · exact hb

theorem rabs_eq (a : ℚ) : rabs a = |a| := by
  rcases le_or_lt 0 a with h | h
  · have hnum : (a.num.natAbs : ℤ) = a.num := by
      have := Rat.num_nonneg.mpr h
      omega
    rw [abs_of_nonneg h, rabs, Rat.mkRat_eq_divInt, hnum, Rat.num_divInt_den]
  · have hnum : (a.num.natAbs : ℤ) = -a.num := by
      have := Rat.num_neg.mpr h
      omega
    rw [abs_of_neg h, rabs, Rat.mkRat_eq_divInt, hnum, ← Rat.neg_divInt,
      Rat.num_divInt_den]

theorem pow2_eq (e : ℤ) : pow2 e = (2 : ℚ) ^ e := by
  rw [pow2]
  split
  · next h =>
    rw [Rat.mkRat_one]
    push_cast
    rw [← zpow_natCast]
    congr 1
    omega
  · next h =>
    rw [Rat.mkRat_eq_divInt, Rat.divInt_eq_div]
    push_cast
    rw [one_div, ← zpow_natCast, ← zpow_neg]
    congr 1
    omega

/-! ### Floor, truncation toward zero, round half to even -/

/-- Floor of a rational, computable by the kernel. -/
def rfloor (a : ℚ) : ℤ := a.num / (a.den : ℤ)

/-- Ceiling of a rational, computable by the kernel. -/
def rceil (a : ℚ) : ℤ := -(rfloor (rneg a))

theorem rfloor_eq (a : ℚ) : rfloor a = ⌊a⌋ := (Rat.floor_def).symm

theorem rceil_eq (a : ℚ) : rceil a = ⌈a⌉ := by
  rw [rceil, rfloor_eq, rneg_eq, Int.floor_neg, neg_neg]

/-- Truncation toward zero, the rounding used by Rust's `%` on floats. -/
def intTrunc (q : ℚ) : ℤ := if 0 ≤ q.num then rfloor q else -(rfloor (rneg q))

theorem intTrunc_eq (q : ℚ) :
    intTrunc q = if 0 ≤ q then (⌊q⌋ : ℤ) else -⌊-q⌋ := by
  rw [intTrunc, rfloor_eq, rfloor_eq, rneg_eq]
  congr 1
  simp [Rat.num_nonneg]

/-- Round half to even of a rational, computable by the kernel.  This is the
integer rounding at the heart of IEEE-754 round-to-nearest. -/
def rhe (s : ℚ) : ℤ :=
  if 2 * (s.num % (s.den : ℤ)) < (s.den : ℤ) then s.num / (s.den : ℤ)
  else if (s.den : ℤ) < 2 * (s.num % (s.den : ℤ)) then s.num / (s.den : ℤ) + 1
  else if (s.num / (s.den : ℤ)) % 2 = 0 then s.num / (s.den : ℤ)
  else s.num / (s.den : ℤ) + 1

theorem rhe_eq (s : ℚ) :
    rhe s = if Int.fract s < 1/2 then (⌊s⌋ : ℤ)
      else if 1/2 < Int.fract s then ⌊s⌋ + 1
      else if Even ⌊s⌋ then ⌊s⌋ else ⌊s⌋ + 1 := by
  have hd : (0 : ℚ) < (s.den : ℚ) := by exact_mod_cast s.den_pos
  have hfr : ((s.num % (s.den : ℤ) : ℤ) : ℚ) = Int.fract s * (s.den : ℚ) := by
    have h1 : s.num % (s.den : ℤ) = s.num - (s.den : ℤ) * ⌊s⌋ := by
      rw [Int.emod_def, Rat.floor_def]
    rw [h1]
    push_cast
    rw [num_cast_eq s, Int.fract]
    ring
  have hlt : (2 * (s.num % (s.den : ℤ)) < (s.den : ℤ)) ↔ Int.fract s < 1/2 := by
    rw [show (2 * (s.num % (s.den : ℤ)) < (s.den : ℤ)) ↔
        ((2 * (s.num % (s.den : ℤ)) : ℤ) : ℚ) < ((s.den : ℤ) : ℚ) from by
      exact_mod_cast Iff.rfl]
    push_cast
    rw [hfr]
    constructor
    · intro h
      nlinarith
    · intro h
      nlinarith
  have hgt : ((s.den : ℤ) < 2 * (s.num % (s.den : ℤ))) ↔ 1/2 < Int.fract s := by
    rw [show ((s.den : ℤ) < 2 * (s.num % (s.den : ℤ))) ↔
        ((s.den : ℤ) : ℚ) < ((2 * (s.num % (s.den : ℤ)) : ℤ) : ℚ) from by
      exact_mod_cast Iff.rfl]
    push_cast
    rw [hfr]
    constructor
    · intro h
      nlinarith
    · intro h
      nlinarith
  have heven : ((s.num / (s.den : ℤ)) % 2 = 0) ↔ Even ⌊s⌋ := by
    rw [← Rat.floor_def, Int.even_iff]
  rw [rhe]
  simp only [← Rat.floor_def, hlt, hgt, Int.even_iff]

theorem rhe_intCast (n : ℤ) : rhe (n : ℚ) = n := by
  rw [rhe_eq]
  simp [Int.fract_intCast, Int.floor_intCast]

theorem rhe_floor_le (s : ℚ) : ⌊s⌋ ≤ rhe s := by
  rw [rhe_eq]
  split
  · omega
  · split
    · omega
    · split
      · omega
      · omega

theorem rhe_le_floor_add_one (s : ℚ) : rhe s ≤ ⌊s⌋ + 1 := by
  rw [rhe_eq]
  split
  · omega
  · split
    · omega
    · split
      · omega
      · omega

theorem rhe_of_fract_lt {s : ℚ} (h : Int.fract s < 1/2) : rhe s = ⌊s⌋ := by
  rw [rhe_eq, if_pos h]

theorem rhe_of_lt_fract {s : ℚ} (h : 1/2 < Int.fract s) : rhe s = ⌊s⌋ + 1 := by
  rw [rhe_eq, if_neg (by linarith), if_pos h]

theorem rhe_nonneg {s : ℚ} (h : 0 ≤ s) : 0 ≤ rhe s := by
  have := rhe_floor_le s
  have h2 : (0 : ℤ) ≤ ⌊s⌋ := Int.floor_nonneg.mpr h
  omega

theorem rhe_nonpos {s : ℚ} (h : s ≤ 0) : rhe s ≤ 0 := by
  rcases eq_or_lt_of_le h with h0 | h0
  · rw [h0]
    have : ((0 : ℤ) : ℚ) = (0 : ℚ) := by norm_num
    rw [← this, rhe_intCast]
  · have hfl : ⌊s⌋ + 1 ≤ 0 := by
      have : ⌊s⌋ < 0 := Int.floor_lt.mpr (by exact_mod_cast h0)
      omega
    have := rhe_le_floor_add_one s
    omega

theorem eq_of_floor_fract_eq {s t : ℚ} (hf : ⌊s⌋ = ⌊t⌋)
    (hr : Int.fract s = Int.fract t) : s = t := by
  have hs : s = ⌊s⌋ + Int.fract s := by rw [Int.fract]; ring
  have ht : t = ⌊t⌋ + Int.fract t := by rw [Int.fract]; ring
  rw [hs, ht, hf, hr]

theorem rhe_mono {s t : ℚ} (h : s ≤ t) : rhe s ≤ rhe t := by
  rcases lt_or_le ⌊s⌋ ⌊t⌋ with hf | hf
  · have h1 := rhe_le_floor_add_one s
    have h2 := rhe_floor_le t
    omega
  · have hfe : ⌊s⌋ = ⌊t⌋ := le_antisymm (Int.floor_le_floor h) hf
    have hfr : Int.fract s ≤ Int.fract t := by
      rw [Int.fract, Int.fract, hfe]
      linarith
    rcases lt_trichotomy (Int.fract s) (1/2 : ℚ) with c1 | c1 | c1
    · rw [rhe_of_fract_lt c1, hfe]
      exact rhe_floor_le t
    · rcases lt_or_le (1/2 : ℚ) (Int.fract t) with c2 | c2
      · rw [rhe_of_lt_fract c2, ← hfe]
        exact rhe_le_floor_add_one s
      · have : s = t := eq_of_floor_fract_eq hfe (by linarith)
        rw [this]
    · rw [rhe_of_lt_fract c1, rhe_of_lt_fract (lt_of_lt_of_le c1 hfr), hfe]

theorem floor_neg_of_fract_ne_zero {s : ℚ} (h : Int.fract s ≠ 0) :
    ⌊-s⌋ = -⌊s⌋ - 1 := by
  rw [Int.floor_eq_iff]
  have h1 : (⌊s⌋ : ℚ) ≤ s := Int.floor_le s
  have h2 : s < ⌊s⌋ + 1 := Int.lt_floor_add_one s
  have h3 : (⌊s⌋ : ℚ) ≠ s := by
    intro he
    apply h
    rw [Int.fract, ← he]
    simp
  have h4 : (⌊s⌋ : ℚ) < s := lt_of_le_of_ne h1 h3
  constructor
  · push_cast
    linarith
  · push_cast
    linarith

theorem rhe_neg (s : ℚ) : rhe (-s) = -(rhe s) := by
  rcases eq_or_ne (Int.fract s) 0 with hf | hf
  · have hs : s = ((⌊s⌋ : ℤ) : ℚ) := by
      have hd : Int.fract s = s - ⌊s⌋ := rfl
      rw [hd] at hf
      linarith
    have hneg : -s = ((-⌊s⌋ : ℤ) : ℚ) := by
      conv_lhs => rw [hs]
      push_cast
      ring
    have h2 : rhe s = ⌊s⌋ := by
      rw [hs, rhe_intCast, Int.floor_intCast]
    rw [hneg, rhe_intCast, h2]
  · have hfn : Int.fract (-s) = 1 - Int.fract s := Int.fract_neg hf
    have hfl : ⌊-s⌋ = -⌊s⌋ - 1 := floor_neg_of_fract_ne_zero hf
    have hr1 : (0:ℚ) < Int.fract s := lt_of_le_of_ne (Int.fract_nonneg s) (Ne.symm hf)
    rcases lt_trichotomy (Int.fract s) (1/2 : ℚ) with c | c | c
    · have hc2 : (1:ℚ)/2 < Int.fract (-s) := by rw [hfn]; linarith
      rw [rhe_of_lt_fract hc2, rhe_of_fract_lt c, hfl]
      ring
    · have hc2 : Int.fract (-s) = 1/2 := by rw [hfn, c]; norm_num
      have hgs : rhe s = if Even ⌊s⌋ then ⌊s⌋ else ⌊s⌋ + 1 := by
        rw [rhe_eq, if_neg (by rw [c]; exact lt_irrefl _),
          if_neg (by rw [c]; exact lt_irrefl _)]
      have hgn : rhe (-s) = if Even ⌊-s⌋ then ⌊-s⌋ else ⌊-s⌋ + 1 := by
        rw [rhe_eq, if_neg (by rw [hc2]; exact lt_irrefl _),
          if_neg (by rw [hc2]; exact lt_irrefl _)]
      rw [hgs, hgn, hfl]
      rcases Int.even_or_odd ⌊s⌋ with he | he
      · have he2 : ¬ Even (-⌊s⌋ - 1) := by
          rw [Int.even_iff] at he ⊢
          omega
        rw [if_pos he, if_neg he2]
        ring
      · have he1 : ¬ Even ⌊s⌋ := Int.not_even_iff_odd.mpr he
        have he2 : Even (-⌊s⌋ - 1) := by
          rw [Int.even_iff]
          rw [Int.odd_iff] at he
          omega
        rw [if_neg he1, if_pos he2]
        ring
    · have hc2 : Int.fract (-s) < 1/2 := by
        rw [hfn]
        have : Int.fract s < 1 := Int.fract_lt_one s
        linarith
      rw [rhe_of_fract_lt hc2, rhe_of_lt_fract c, hfl]
      ring

/-! ### Binary logarithm on naturals, computable with shallow recursion

The recursion first strips chunks of 64 bits, then single bits, so that the
kernel can evaluate it on numbers of the size of the largest `f64` without
deep recursion. -/

/-- Number of times `n` can be divided by `2^64` before falling below it. -/
def lgb : ℕ → ℕ → ℕ
  | 0, _ => 0
  | f+1, n => if n < 18446744073709551616 then 0 else lgb f (n / 18446744073709551616) + 1

/-- Number of times `n` can be divided by `2` before falling below it. -/
def lgs : ℕ → ℕ → ℕ
  | 0, _ => 0
  | f+1, n => if n < 2 then 0 else lgs f (n / 2) + 1

/-- Floor of the binary logarithm of a positive natural number. -/
def nlog (n : ℕ) : ℕ := 64 * lgb n n + lgs 64 (n / 18446744073709551616 ^ lgb n n)

/-- Ceiling of the binary logarithm of a natural number. -/
def nclog (n : ℕ) : ℕ := if n ≤ 1 then 0 else nlog (n - 1) + 1

theorem lgb_le : ∀ f n, 0 < n → 18446744073709551616 ^ lgb f n ≤ n := by
  intro f
  induction f with
  | zero => intro n hn; simp [lgb]; omega
  | succ f ih =>
    intro n hn
    rw [lgb]
    split
    · simpa using hn
    · next hge =>
      have hB : (0:ℕ) < 18446744073709551616 := by norm_num
      have hdiv : 0 < n / 18446744073709551616 :=
        Nat.div_pos (by omega) hB
      have := ih (n / 18446744073709551616) hdiv
      calc 18446744073709551616 ^ (lgb f (n / 18446744073709551616) + 1)
          = 18446744073709551616 ^ lgb f (n / 18446744073709551616) *
            18446744073709551616 := by rw [pow_succ]
        _ ≤ (n / 18446744073709551616) * 18446744073709551616 :=
            Nat.mul_le_mul_right _ this
        _ ≤ n := Nat.div_mul_le_self n _

theorem lgb_div_lt : ∀ f n, n < 18446744073709551616 ^ f →
    n / 18446744073709551616 ^ lgb f n < 18446744073709551616 := by
  intro f
  induction f with
  | zero =>
    intro n hn
    simp only [pow_zero] at hn
    interval_cases n
    simp [lgb]
  | succ f ih =>
    intro n hn
    rw [lgb]
    split
    · next hlt => simpa using hlt
    · next hge =>
      have hB : (0:ℕ) < 18446744073709551616 := by norm_num
      have hstep : n / 18446744073709551616 < 18446744073709551616 ^ f := by
        rw [Nat.div_lt_iff_lt_mul hB]
        calc n < 18446744073709551616 ^ (f + 1) := hn
          _ = 18446744073709551616 ^ f * 18446744073709551616 := by rw [pow_succ]
      have := ih (n / 18446744073709551616) hstep
      rw [pow_succ, mul_comm (18446744073709551616 ^ lgb f (n / 18446744073709551616)), ← Nat.div_div_eq_div_mul]
      exact this

theorem lgs_le : ∀ f n, 0 < n → 2 ^ lgs f n ≤ n := by
  intro f
  induction f with
  | zero => intro n hn; simp [lgs]; omega
  | succ f ih =>
    intro n hn
    rw [lgs]
    split
    · simpa using hn
    · next hge =>
      have hdiv : 0 < n / 2 := Nat.div_pos (by omega) (by norm_num)
      have := ih (n / 2) hdiv
      calc 2 ^ (lgs f (n / 2) + 1) = 2 ^ lgs f (n / 2) * 2 := by rw [pow_succ]
        _ ≤ (n / 2) * 2 := Nat.mul_le_mul_right _ this
        _ ≤ n := Nat.div_mul_le_self n _

theorem lgs_lt : ∀ f n, n < 2 ^ f → n < 2 ^ (lgs f n + 1) := by
  intro f
  induction f with
  | zero =>
    intro n hn
    simp only [pow_zero] at hn
    interval_cases n
    simp [lgs]
  | succ f ih =>
    intro n hn
    rw [lgs]
    split
    · next hlt =>
      simpa using hlt
    · next hge =>
      have hstep : n / 2 < 2 ^ f := by
        rw [Nat.div_lt_iff_lt_mul (by norm_num : (0:ℕ) < 2)]
        calc n < 2 ^ (f + 1) := hn
          _ = 2 ^ f * 2 := by rw [pow_succ]
      have h2 := ih (n / 2) hstep
      have h3 : n = 2 * (n / 2) + n % 2 := (Nat.div_add_mod n 2).symm
      have h4 : n % 2 < 2 := Nat.mod_lt _ (by norm_num)
      calc n = 2 * (n / 2) + n % 2 := h3
        _ < 2 * (2 ^ (lgs f (n / 2) + 1)) := by omega
        _ = 2 ^ (lgs f (n / 2) + 1 + 1) := by rw [pow_succ]; ring

theorem nlog_le {n : ℕ} (hn : 0 < n) : 2 ^ nlog n ≤ n := by
  have hc := lgb_le n n hn
  have hm : 0 < n / 18446744073709551616 ^ lgb n n :=
    Nat.div_pos hc (pow_pos (by norm_num) _)
  have hL := lgs_le 64 _ hm
  have hBpow : (18446744073709551616 : ℕ) = 2 ^ 64 := by norm_num
  calc 2 ^ nlog n = 2 ^ (64 * lgb n n) * 2 ^ lgs 64 (n / 18446744073709551616 ^ lgb n n) := by
        rw [nlog, pow_add]
    _ ≤ 2 ^ (64 * lgb n n) * (n / 18446744073709551616 ^ lgb n n) :=
        Nat.mul_le_mul_left _ hL
    _ = 18446744073709551616 ^ lgb n n * (n / 18446744073709551616 ^ lgb n n) := by
        rw [hBpow, ← pow_mul]
    _ ≤ n := Nat.mul_div_le n _

theorem nlog_lt {n : ℕ} (hn : 0 < n) : n < 2 ^ (nlog n + 1) := by
  have hBpow : (18446744073709551616 : ℕ) = 2 ^ 64 := by norm_num
  set m := n / 18446744073709551616 ^ lgb n n with hm
  have hnB : n < 18446744073709551616 ^ n := by
    calc n < 2 ^ n := Nat.lt_two_pow n
      _ ≤ 18446744073709551616 ^ n := Nat.pow_le_pow_left (by norm_num) n
  have hmlt : m < 2 ^ 64 := by
    rw [hm, ← hBpow]
    exact lgb_div_lt n n hnB
  have hL := lgs_lt 64 m hmlt
  have hpos : (0:ℕ) < 18446744073709551616 ^ lgb n n := pow_pos (by norm_num) _
  have hup : n < 18446744073709551616 ^ lgb n n * (m + 1) := by
    have h1 := Nat.div_add_mod n (18446744073709551616 ^ lgb n n)
    have h2 : n % 18446744073709551616 ^ lgb n n < 18446744073709551616 ^ lgb n n :=
      Nat.mod_lt _ hpos
    rw [← hm] at h1
    nlinarith [h1, h2]
  have hfin : 18446744073709551616 ^ lgb n n * 2 ^ (lgs 64 m + 1) = 2 ^ (nlog n + 1) := by
    rw [hBpow, ← pow_mul, ← pow_add]
    congr 1
  calc n < 18446744073709551616 ^ lgb n n * (m + 1) := hup
    _ ≤ 18446744073709551616 ^ lgb n n * 2 ^ (lgs 64 m + 1) :=
        Nat.mul_le_mul_left _ hL
    _ = 2 ^ (nlog n + 1) := hfin

theorem nclog_ge (n : ℕ) : n ≤ 2 ^ nclog n := by
  rw [nclog]
  split
  · next h => omega
  · next h =>
    have h1 : 0 < n - 1 := by omega
    have := nlog_lt h1
    omega

theorem nclog_spec {n : ℕ} (h : 2 ≤ n) :
    ∃ c, nclog n = c + 1 ∧ 2 ^ c < n := by
  refine ⟨nlog (n - 1), ?_, ?_⟩
  · rw [nclog, if_neg (by omega)]
  · have h1 : 0 < n - 1 := by omega
    have := nlog_le h1
    omega

/-- Floor of the binary logarithm of a positive rational, computable by the
kernel.  Used to determine the binade, hence the rounding exponent, of a
value. -/
def ilog2 (q : ℚ) : ℤ :=
  if 1 ≤ q then (nlog (rfloor q).toNat : ℤ)
  else -(nclog (rceil (rdiv 1 q)).toNat : ℤ)

theorem ilog2_bracket {q : ℚ} (h : 0 < q) :
    (2:ℚ) ^ ilog2 q ≤ q ∧ q < (2:ℚ) ^ (ilog2 q + 1) := by
  rw [ilog2]
  split
  · next h1 =>
    have hfl : (1:ℤ) ≤ ⌊q⌋ := Int.le_floor.mpr (by exact_mod_cast h1)
    have hnval : (((rfloor q).toNat : ℤ)) = ⌊q⌋ := by
      rw [rfloor_eq]
      omega
    have hn0 : 0 < (rfloor q).toNat := by
      rw [rfloor_eq]
      omega
    have hle := nlog_le hn0
    have hlt := nlog_lt hn0
    constructor
    · have hc1 : (2:ℚ) ^ ((nlog (rfloor q).toNat : ℕ) : ℤ) =
          ((2 ^ nlog (rfloor q).toNat : ℕ) : ℚ) := by
        rw [zpow_natCast]
        push_cast
        ring
      rw [hc1]
      calc ((2 ^ nlog (rfloor q).toNat : ℕ) : ℚ) ≤ (((rfloor q).toNat : ℕ) : ℚ) := by
            exact_mod_cast hle
        _ = ((⌊q⌋ : ℤ) : ℚ) := by exact_mod_cast hnval
        _ ≤ q := Int.floor_le q
    · have hc1 : (2:ℚ) ^ (((nlog (rfloor q).toNat : ℕ) : ℤ) + 1) =
          ((2 ^ (nlog (rfloor q).toNat + 1) : ℕ) : ℚ) := by
        rw [show ((nlog (rfloor q).toNat : ℕ) : ℤ) + 1 =
            (((nlog (rfloor q).toNat + 1 : ℕ) : ℤ)) from by push_cast; ring]
        rw [zpow_natCast]
        push_cast
        ring
      rw [hc1]
      calc q < ⌊q⌋ + 1 := Int.lt_floor_add_one q
        _ = (((rfloor q).toNat : ℤ) : ℚ) + 1 := by rw [hnval]
        _ ≤ ((2 ^ (nlog (rfloor q).toNat + 1) : ℕ) : ℚ) := by
            have h2 : (rfloor q).toNat + 1 ≤ 2 ^ (nlog (rfloor q).toNat + 1) := hlt
            exact_mod_cast h2
  · next h1 =>
    have hq1 : q < 1 := not_le.mp h1
    have hqi : 1 < 1/q := by
      rw [lt_div_iff h]
      linarith
    have hceil : rceil (rdiv 1 q) = ⌈1/q⌉ := by rw [rdiv_eq, rceil_eq]
    have hm2 : (2:ℤ) ≤ ⌈1/q⌉ := by
      have := Int.lt_ceil.mpr (by exact_mod_cast hqi : ((1:ℤ) : ℚ) < 1/q)
      omega
    have hmval : (((rceil (rdiv 1 q)).toNat : ℤ)) = ⌈1/q⌉ := by
      rw [hceil]
      omega
    have hm2n : 2 ≤ (rceil (rdiv 1 q)).toNat := by omega
    obtain ⟨c, hc, hclt⟩ := nclog_spec hm2n
    have hcge := nclog_ge (rceil (rdiv 1 q)).toNat
    have h2cpos : (0:ℚ) < ((2 ^ nclog (rceil (rdiv 1 q)).toNat : ℕ) : ℚ) := by
      positivity
    constructor
    · have hle : (1/q) ≤ ((2 ^ nclog (rceil (rdiv 1 q)).toNat : ℕ) : ℚ) := by
        calc 1/q ≤ (⌈1/q⌉ : ℚ) := Int.le_ceil _
          _ = (((rceil (rdiv 1 q)).toNat : ℤ) : ℚ) := by rw [hmval]
          _ ≤ _ := by exact_mod_cast hcge
      have hmul : 1 ≤ ((2 ^ nclog (rceil (rdiv 1 q)).toNat : ℕ) : ℚ) * q :=
        (div_le_iff h).mp hle
      have hgoal : (2:ℚ) ^ (-((nclog (rceil (rdiv 1 q)).toNat : ℕ) : ℤ)) =
          1 / ((2 ^ nclog (rceil (rdiv 1 q)).toNat : ℕ) : ℚ) := by
        rw [zpow_neg, zpow_natCast, inv_eq_one_div]
        push_cast
        ring
      rw [hgoal, div_le_iff h2cpos]
      linarith
    · have hlt2 : ((2 ^ c : ℕ) : ℚ) < 1/q := by
        have hup : ((((rceil (rdiv 1 q)).toNat : ℤ)) : ℚ) - 1 < 1/q := by
          have hc2 := Int.ceil_lt_add_one (1/q)
          rw [← hmval] at hc2
          push_cast at hc2 ⊢
          linarith
        have hstep : ((2 ^ c : ℕ) : ℚ) + 1 ≤ ((((rceil (rdiv 1 q)).toNat : ℤ)) : ℚ) := by
          have h3 : (2 ^ c : ℕ) + 1 ≤ (rceil (rdiv 1 q)).toNat := hclt
          exact_mod_cast h3
        linarith
      have hgoal : (2:ℚ) ^ (-((nclog (rceil (rdiv 1 q)).toNat : ℕ) : ℤ) + 1) =
          1 / ((2 ^ c : ℕ) : ℚ) := by
        rw [hc]
        rw [show (-(((c + 1 : ℕ)) : ℤ) + 1) = -((c : ℕ) : ℤ) from by push_cast; ring]
        rw [zpow_neg, zpow_natCast, inv_eq_one_div]
        push_cast
        ring
      rw [hgoal, lt_div_iff (by positivity : (0:ℚ) < ((2 ^ c : ℕ) : ℚ))]
      calc q * ((2 ^ c : ℕ) : ℚ) < q * (1/q) := by
            exact mul_lt_mul_of_pos_left hlt2 h
        _ = 1 := by field_simp

/-! ### Floating-point format descriptions

`FloatCfg` mirrors the sealed `Float` trait of src/float.rs: it fixes the
format (precision, exponent range) and carries the trait's associated
constants `PI`, `TAU`, `ONE`, `DEG_TO_RAD`, `TURNS_TO_RAD`, `GRAD_TO_RAD`
as exact rationals.  The two instantiations `f32Cfg` and `f64Cfg` below
use the exact values of the Rust constants. -/

structure FloatCfg where
  prec : ℕ
  emin : ℤ
  emax : ℤ
  pi : ℚ
  tau : ℚ
  one : ℚ
  degToRad : ℚ
  turnsToRad : ℚ
  gradToRad : ℚ

/-- The largest finite value of the format: `(2^prec - 1) * 2^emax`. -/
def maxFinite (c : FloatCfg) : ℚ :=
  rmul (mkRat (((2 ^ c.prec - 1 : ℕ) : ℤ)) 1) (pow2 c.emax)

theorem maxFinite_eq (c : FloatCfg) :
    maxFinite c = ((2 ^ c.prec - 1 : ℕ) : ℚ) * (2:ℚ) ^ c.emax := by
  rw [maxFinite, rmul_eq, Rat.mkRat_one, pow2_eq]
  norm_cast

/-- The exponent at which a value of the format in the binade of `q` is
represented with an integer mantissa. -/
def cexp (c : FloatCfg) (q : ℚ) : ℤ :=
  max c.emin (ilog2 (rabs q) - ((c.prec : ℤ) - 1))

/-- `q` is an integer multiple of `2^e`. -/
def Mul2 (q : ℚ) (e : ℤ) : Prop := ∃ M : ℤ, q = (M : ℚ) * (2:ℚ) ^ e

/-- `q` is a finite value of the format `c`: an integer multiple of `2^e`
for some in-range exponent, with a mantissa of at most `prec` bits, and of
magnitude at most `maxFinite`. -/
def isRepr (c : FloatCfg) (q : ℚ) : Prop :=
  ∃ M eM : ℤ, c.emin ≤ eM ∧ |M| < 2 ^ c.prec ∧
    q = rmul (mkRat M 1) (pow2 eM) ∧ rabs q ≤ maxFinite c

theorem isRepr_iff (c : FloatCfg) (q : ℚ) :
    isRepr c q ↔ ∃ M eM : ℤ, c.emin ≤ eM ∧ |M| < 2 ^ c.prec ∧
      q = (M : ℚ) * (2:ℚ) ^ eM ∧ |q| ≤ maxFinite c := by
  unfold isRepr
  constructor
  · rintro ⟨M, eM, h1, h2, h3, h4⟩
    refine ⟨M, eM, h1, h2, ?_, ?_⟩
    · rw [h3, rmul_eq, Rat.mkRat_one, pow2_eq]
    · rw [← rabs_eq]
      exact h4
  · rintro ⟨M, eM, h1, h2, h3, h4⟩
    refine ⟨M, eM, h1, h2, ?_, ?_⟩
    · rw [rmul_eq, Rat.mkRat_one, pow2_eq]
      exact h3
    · rw [rabs_eq]
      exact h4

/-- IEEE-754 round to nearest, ties to even, of an exact rational onto the
grid of the format (without overflow handling, which `rndFp` adds). -/
def rndCore (c : FloatCfg) (q : ℚ) : ℚ :=
  rmul (mkRat (rhe (rmul q (pow2 (-(cexp c q))))) 1) (pow2 (cexp c q))

theorem rndCore_eq (c : FloatCfg) (q : ℚ) :
    rndCore c q = ((rhe (q * (2:ℚ) ^ (-(cexp c q))) : ℤ) : ℚ) * (2:ℚ) ^ cexp c q := by
  rw [rndCore, rmul_eq, Rat.mkRat_one, pow2_eq, rmul_eq, pow2_eq]

theorem two_zpow_pos (e : ℤ) : (0:ℚ) < 2 ^ e := zpow_pos (by norm_num) e

theorem two_zpow_ne_zero (e : ℤ) : (2:ℚ) ^ e ≠ 0 := ne_of_gt (two_zpow_pos e)

theorem two_zpow_lt_iff {a b : ℤ} : (2:ℚ) ^ a < 2 ^ b ↔ a < b :=
  zpow_lt_zpow_iff_right₀ (by norm_num)

theorem two_zpow_le_iff {a b : ℤ} : (2:ℚ) ^ a ≤ 2 ^ b ↔ a ≤ b :=
  zpow_le_zpow_iff_right₀ (by norm_num)

theorem cexp_eq (c : FloatCfg) (q : ℚ) :
    cexp c q = max c.emin (ilog2 |q| - ((c.prec : ℤ) - 1)) := by
  unfold cexp
  rw [rabs_eq]

theorem cexp_ge_emin (c : FloatCfg) (q : ℚ) : c.emin ≤ cexp c q := by
  rw [cexp_eq]
  exact le_max_left _ _

theorem cexp_neg (c : FloatCfg) (q : ℚ) : cexp c (-q) = cexp c q := by
  rw [cexp_eq, cexp_eq, abs_neg]

theorem abs_lt_pow_cexp {c : FloatCfg} {q : ℚ} (hq : q ≠ 0) :
    |q| < (2:ℚ) ^ (cexp c q + c.prec) := by
  have habs : (0:ℚ) < |q| := abs_pos.mpr hq
  have hbr := (ilog2_bracket habs).2
  have hle : ilog2 |q| + 1 ≤ cexp c q + c.prec := by
    rw [cexp_eq]
    omega
  calc |q| < (2:ℚ) ^ (ilog2 |q| + 1) := hbr
    _ ≤ (2:ℚ) ^ (cexp c q + c.prec) := two_zpow_le_iff.mpr hle

theorem pow_ilog_le_abs {q : ℚ} (hq : q ≠ 0) : (2:ℚ) ^ ilog2 |q| ≤ |q| :=
  (ilog2_bracket (abs_pos.mpr hq)).1

theorem cexp_mono {c : FloatCfg} {a b : ℚ} (ha : a ≠ 0) (hab : |a| ≤ |b|) :
    cexp c a ≤ cexp c b := by
  have ha2 : (0:ℚ) < |a| := abs_pos.mpr ha
  have hb2 : (0:ℚ) < |b| := lt_of_lt_of_le ha2 hab
  have h1 := (ilog2_bracket ha2).1
  have h2 := (ilog2_bracket hb2).2
  have hlog : ilog2 |a| ≤ ilog2 |b| := by
    by_contra hcon
    push_neg at hcon
    have : (2:ℚ) ^ ilog2 |b| < 2 ^ ilog2 |a| := two_zpow_lt_iff.mpr hcon
    have hx : |b| < (2:ℚ) ^ (ilog2 |b| + 1) := h2
    have hy : (2:ℚ) ^ (ilog2 |b| + 1) ≤ 2 ^ ilog2 |a| := two_zpow_le_iff.mpr (by omega)
    linarith [h1, hab]
  rw [cexp_eq, cexp_eq]
  omega

theorem Mul2.mono {q : ℚ} {e e' : ℤ} (h : e' ≤ e) (hm : Mul2 q e) : Mul2 q e' := by
  obtain ⟨M, hM⟩ := hm
  refine ⟨M * 2 ^ (e - e').toNat, ?_⟩
  rw [hM]
  push_cast
  rw [mul_assoc, ← zpow_natCast (2:ℚ), ← zpow_add₀ (by norm_num : (2:ℚ) ≠ 0)]
  congr 2
  omega

theorem Mul2.sub {a b : ℚ} {e : ℤ} (ha : Mul2 a e) (hb : Mul2 b e) :
    Mul2 (a - b) e := by
  obtain ⟨M, hM⟩ := ha
  obtain ⟨N, hN⟩ := hb
  refine ⟨M - N, ?_⟩
  rw [hM, hN]
  push_cast
  ring

theorem Mul2.add {a b : ℚ} {e : ℤ} (ha : Mul2 a e) (hb : Mul2 b e) :
    Mul2 (a + b) e := by
  obtain ⟨M, hM⟩ := ha
  obtain ⟨N, hN⟩ := hb
  refine ⟨M + N, ?_⟩
  rw [hM, hN]
  push_cast
  ring

theorem Mul2.neg {a : ℚ} {e : ℤ} (ha : Mul2 a e) : Mul2 (-a) e := by
  obtain ⟨M, hM⟩ := ha
  refine ⟨-M, ?_⟩
  rw [hM]
  push_cast
  ring

theorem Mul2.zero (e : ℤ) : Mul2 0 e := ⟨0, by norm_num⟩

theorem repr_mul2_cexp {c : FloatCfg} {q : ℚ} (h : isRepr c q) :
    Mul2 q (cexp c q) := by
  rcases eq_or_ne q 0 with h0 | h0
  · rw [h0]
    exact Mul2.zero _
  · obtain ⟨M, eM, h1, h2, h3, _⟩ := (isRepr_iff c q).mp h
    have hM0 : M ≠ 0 := by
      intro hc
      apply h0
      rw [h3, hc]
      norm_num
    have habs : |q| = |(M:ℚ)| * (2:ℚ) ^ eM := by
      rw [h3, abs_mul, abs_of_pos (two_zpow_pos eM)]
    have hlt : |q| < (2:ℚ) ^ ((c.prec : ℤ) + eM) := by
      rw [habs]
      have : |(M:ℚ)| < (2:ℚ) ^ (c.prec : ℤ) := by
        rw [zpow_natCast]
        exact_mod_cast h2
      calc |(M:ℚ)| * (2:ℚ) ^ eM < (2:ℚ) ^ (c.prec : ℤ) * (2:ℚ) ^ eM := by
            exact mul_lt_mul_of_pos_right this (two_zpow_pos eM)
        _ = (2:ℚ) ^ ((c.prec : ℤ) + eM) := by
            rw [← zpow_add₀ (by norm_num : (2:ℚ) ≠ 0)]
    have hlog : ilog2 |q| < (c.prec : ℤ) + eM := by
      by_contra hcon
      push_neg at hcon
      have := pow_ilog_le_abs h0
      have h4 : (2:ℚ) ^ ((c.prec : ℤ) + eM) ≤ 2 ^ ilog2 |q| := two_zpow_le_iff.mpr hcon
      linarith
    have hce : cexp c q ≤ eM := by
      rw [cexp_eq]
      omega
    exact Mul2.mono hce ⟨M, h3⟩

theorem mul2_cexp_to_repr {c : FloatCfg} {q : ℚ} (hm : Mul2 q (cexp c q))
    (hb : |q| ≤ maxFinite c) : isRepr c q := by
  rcases eq_or_ne q 0 with h0 | h0
  · subst h0
    rw [isRepr_iff]
    refine ⟨0, c.emin, le_refl _, by positivity, by norm_num, by simpa using hb⟩
  · obtain ⟨M, hM⟩ := hm
    rw [isRepr_iff]
    set e := cexp c q with he
    refine ⟨M, e, he ▸ cexp_ge_emin c q, ?_, hM, hb⟩
    have habs : |q| = |(M:ℚ)| * (2:ℚ) ^ e := by
      rw [hM, abs_mul, abs_of_pos (two_zpow_pos _)]
    have hlt : |q| < (2:ℚ) ^ (e + c.prec) := abs_lt_pow_cexp h0
    rw [habs] at hlt
    have h2 : |(M:ℚ)| < (2:ℚ) ^ (c.prec : ℤ) := by
      have hpow : (2:ℚ) ^ (e + c.prec) = (2:ℚ) ^ (c.prec : ℤ) * (2:ℚ) ^ e := by
        rw [← zpow_add₀ (by norm_num : (2:ℚ) ≠ 0)]
        congr 1
        omega
      rw [hpow] at hlt
      have := two_zpow_pos e
      exact lt_of_mul_lt_mul_right (by linarith) (le_of_lt this)
    rw [zpow_natCast] at h2
    exact_mod_cast h2

theorem zpow_mul_zpow_neg (e : ℤ) (x : ℚ) : x * (2:ℚ) ^ e * (2:ℚ) ^ (-e) = x := by
  rw [mul_assoc, ← zpow_add₀ (by norm_num : (2:ℚ) ≠ 0)]
  norm_num

theorem ilog2_two_zpow (k : ℤ) : ilog2 ((2:ℚ) ^ k) = k := by
  have h := ilog2_bracket (two_zpow_pos k)
  have h1 := two_zpow_le_iff.mp h.1
  have h2 := two_zpow_lt_iff.mp h.2
  omega

theorem ilog2_lt_of_abs_lt {x : ℚ} {m : ℤ} (hx : x ≠ 0) (h : |x| < (2:ℚ) ^ m) :
    ilog2 |x| < m := by
  have h1 := pow_ilog_le_abs hx
  by_contra hcon
  push_neg at hcon
  have := two_zpow_le_iff.mpr hcon
  linarith

theorem rnd_of_mul2 {c : FloatCfg} {q : ℚ} (hm : Mul2 q (cexp c q)) :
    rndCore c q = q := by
  obtain ⟨M, hM⟩ := hm
  set e := cexp c q with he
  have hs : q * (2:ℚ) ^ (-e) = ((M : ℤ) : ℚ) := by
    rw [hM]
    exact zpow_mul_zpow_neg _ _
  rw [rndCore_eq, ← he, hs, rhe_intCast, ← hM]

theorem rnd_zero (c : FloatCfg) : rndCore c 0 = 0 :=
  rnd_of_mul2 (Mul2.zero _)

theorem rnd_neg (c : FloatCfg) (q : ℚ) : rndCore c (-q) = -rndCore c q := by
  rw [rndCore_eq, rndCore_eq, cexp_neg]
  have h1 : -q * (2:ℚ) ^ (-(cexp c q)) = -(q * (2:ℚ) ^ (-(cexp c q))) := by ring
  rw [h1, rhe_neg]
  push_cast
  ring

theorem rnd_nonneg {c : FloatCfg} {q : ℚ} (h : 0 ≤ q) : 0 ≤ rndCore c q := by
  rw [rndCore_eq]
  apply mul_nonneg
  · exact_mod_cast rhe_nonneg (mul_nonneg h (le_of_lt (two_zpow_pos _)))
  · exact le_of_lt (two_zpow_pos _)

theorem rnd_nonpos {c : FloatCfg} {q : ℚ} (h : q ≤ 0) : rndCore c q ≤ 0 := by
  have h2 : 0 ≤ rndCore c (-q) := rnd_nonneg (by linarith)
  rw [rnd_neg] at h2
  linarith

theorem rnd_le_of_le {c : FloatCfg} {q t : ℚ} (hq : 0 ≤ q) (hqt : q ≤ t)
    (hmt : Mul2 t (cexp c t)) : rndCore c q ≤ t := by
  rcases eq_or_lt_of_le hq with h0 | h0
  · rw [← h0, rnd_zero]
    linarith
  · have habs : |q| ≤ |t| := by
      rw [abs_of_pos h0, abs_of_pos (lt_of_lt_of_le h0 hqt)]
      exact hqt
    have hce : cexp c q ≤ cexp c t := cexp_mono (ne_of_gt h0) habs
    obtain ⟨M, hM⟩ := Mul2.mono hce hmt
    have hs : q * (2:ℚ) ^ (-(cexp c q)) ≤ ((M : ℤ) : ℚ) := by
      calc q * (2:ℚ) ^ (-(cexp c q))
          ≤ ((M : ℤ) : ℚ) * (2:ℚ) ^ cexp c q * (2:ℚ) ^ (-(cexp c q)) := by
            apply mul_le_mul_of_nonneg_right _ (le_of_lt (two_zpow_pos _))
            rw [← hM]
            exact hqt
        _ = ((M : ℤ) : ℚ) := zpow_mul_zpow_neg _ _
    have hr : rhe (q * (2:ℚ) ^ (-(cexp c q))) ≤ M := by
      have := rhe_mono hs
      rwa [rhe_intCast] at this
    rw [rndCore_eq]
    calc ((rhe (q * (2:ℚ) ^ (-(cexp c q))) : ℤ) : ℚ) * (2:ℚ) ^ cexp c q
        ≤ ((M : ℤ) : ℚ) * (2:ℚ) ^ cexp c q := by
          apply mul_le_mul_of_nonneg_right _ (le_of_lt (two_zpow_pos _))
          exact_mod_cast hr
      _ = t := hM.symm

theorem rnd_ge_of_ge {c : FloatCfg} {t q : ℚ} (hp : 1 ≤ c.prec) (ht0 : 0 ≤ t)
    (htq : t ≤ q) (hmt : Mul2 t (cexp c t)) : t ≤ rndCore c q := by
  rcases eq_or_lt_of_le ht0 with h0 | h0
  · rw [← h0]
    exact rnd_nonneg (le_trans ht0 htq)
  · have hq0 : (0:ℚ) < q := lt_of_lt_of_le h0 htq
    have habs : |t| ≤ |q| := by
      rw [abs_of_pos h0, abs_of_pos hq0]
      exact htq
    have hce : cexp c t ≤ cexp c q := cexp_mono (ne_of_gt h0) habs
    rcases eq_or_lt_of_le hce with hceq | hclt
    · obtain ⟨M, hM⟩ := hmt
      rw [hceq] at hM
      have hs : ((M : ℤ) : ℚ) ≤ q * (2:ℚ) ^ (-(cexp c q)) := by
        calc ((M : ℤ) : ℚ) = ((M : ℤ) : ℚ) * (2:ℚ) ^ cexp c q * (2:ℚ) ^ (-(cexp c q)) :=
              (zpow_mul_zpow_neg _ _).symm
          _ ≤ q * (2:ℚ) ^ (-(cexp c q)) := by
              apply mul_le_mul_of_nonneg_right _ (le_of_lt (two_zpow_pos _))
              rw [← hM]
              exact htq
      have hr : M ≤ rhe (q * (2:ℚ) ^ (-(cexp c q))) := by
        have := rhe_mono hs
        rwa [rhe_intCast] at this
      rw [rndCore_eq]
      calc t = ((M : ℤ) : ℚ) * (2:ℚ) ^ cexp c q := hM
        _ ≤ ((rhe (q * (2:ℚ) ^ (-(cexp c q))) : ℤ) : ℚ) * (2:ℚ) ^ cexp c q := by
            apply mul_le_mul_of_nonneg_right _ (le_of_lt (two_zpow_pos _))
            exact_mod_cast hr
    · -- the binade of t lies strictly below the binade of q
      have hqabs : |q| = q := abs_of_pos hq0
      have htabs : |t| = t := abs_of_pos h0
      have hclamp : cexp c q = ilog2 |q| - ((c.prec : ℤ) - 1) := by
        have h1 := cexp_eq c q
        have h2 := cexp_eq c t
        have h3 : c.emin ≤ cexp c t := cexp_ge_emin c t
        omega
      have hlog_lt : ilog2 |t| + 1 ≤ ilog2 |q| := by
        have h1 := cexp_eq c q
        have h2 := cexp_eq c t
        omega
      have hstep1 : t < (2:ℚ) ^ ilog2 |q| := by
        calc t = |t| := htabs.symm
          _ < (2:ℚ) ^ (ilog2 |t| + 1) := (ilog2_bracket (by rw [htabs]; exact h0)).2
          _ ≤ (2:ℚ) ^ ilog2 |q| := two_zpow_le_iff.mpr hlog_lt
      have hstep2 : (2:ℚ) ^ ilog2 |q| ≤ rndCore c q := by
        have hs : ((2 ^ (c.prec - 1) : ℤ) : ℚ) ≤ q * (2:ℚ) ^ (-(cexp c q)) := by
          have hql : (2:ℚ) ^ ilog2 |q| ≤ q := by
            calc (2:ℚ) ^ ilog2 |q| ≤ |q| := pow_ilog_le_abs (ne_of_gt hq0)
              _ = q := hqabs
          have hexp : ((c.prec : ℤ) - 1) = ilog2 |q| + (-(cexp c q)) := by omega
          have hcast : ((2 ^ (c.prec - 1) : ℤ) : ℚ) = (2:ℚ) ^ ((c.prec : ℤ) - 1) := by
            push_cast
            rw [← zpow_natCast]
            congr 1
            omega
          rw [hcast, hexp, zpow_add₀ (by norm_num : (2:ℚ) ≠ 0)]
          exact mul_le_mul_of_nonneg_right hql (le_of_lt (two_zpow_pos _))
        have hr : (2 ^ (c.prec - 1) : ℤ) ≤ rhe (q * (2:ℚ) ^ (-(cexp c q))) := by
          have := rhe_mono hs
          rwa [rhe_intCast] at this
        rw [rndCore_eq]
        calc (2:ℚ) ^ ilog2 |q|
            = (2:ℚ) ^ ((c.prec : ℤ) - 1) * (2:ℚ) ^ cexp c q := by
              rw [← zpow_add₀ (by norm_num : (2:ℚ) ≠ 0)]
              congr 1
              omega
          _ ≤ ((rhe (q * (2:ℚ) ^ (-(cexp c q))) : ℤ) : ℚ) * (2:ℚ) ^ cexp c q := by
              apply mul_le_mul_of_nonneg_right _ (le_of_lt (two_zpow_pos _))
              have hcast : ((2 ^ (c.prec - 1) : ℤ) : ℚ) = (2:ℚ) ^ ((c.prec : ℤ) - 1) := by
                push_cast
                rw [← zpow_natCast]
                congr 1
                omega
              rw [← hcast]
              exact_mod_cast hr
      linarith

theorem rnd_abs_le {c : FloatCfg} {q t : ℚ} (h : |q| ≤ t)
    (hmt : Mul2 t (cexp c t)) : |rndCore c q| ≤ t := by
  rcases le_or_lt 0 q with hq | hq
  · rw [abs_of_nonneg (rnd_nonneg hq)]
    exact rnd_le_of_le hq (le_trans (le_abs_self q) h) hmt
  · have hneg : (0:ℚ) ≤ -q := by linarith
    have h2 : rndCore c (-q) ≤ t := by
      apply rnd_le_of_le hneg _ hmt
      calc -q ≤ |(-q)| := le_abs_self _
        _ = |q| := abs_neg q
        _ ≤ t := h
    have h3 : 0 ≤ rndCore c (-q) := rnd_nonneg hneg
    rw [rnd_neg] at h2 h3
    rw [abs_of_nonpos (by linarith : rndCore c q ≤ 0)]
    linarith

theorem rnd_abs_ge {c : FloatCfg} {q t : ℚ} (hp : 1 ≤ c.prec) (ht0 : 0 ≤ t)
    (h : t ≤ |q|) (hmt : Mul2 t (cexp c t)) : t ≤ |rndCore c q| := by
  rcases le_or_lt 0 q with hq | hq
  · rw [abs_of_nonneg (rnd_nonneg hq)]
    exact rnd_ge_of_ge hp ht0 (by rwa [abs_of_nonneg hq] at h) hmt
  · have hneg : (0:ℚ) ≤ -q := by linarith
    have h2 : t ≤ rndCore c (-q) := by
      apply rnd_ge_of_ge hp ht0 _ hmt
      rwa [abs_of_neg hq] at h
    have h3 : 0 ≤ rndCore c (-q) := rnd_nonneg hneg
    rw [rnd_neg] at h2 h3
    rw [abs_of_nonpos (by linarith : rndCore c q ≤ 0)]
    linarith

theorem repr_abs_le {c : FloatCfg} {q : ℚ} (h : isRepr c q) : |q| ≤ maxFinite c := by
  obtain ⟨M, eM, _, _, _, h4⟩ := (isRepr_iff c q).mp h
  exact h4

theorem repr_neg {c : FloatCfg} {q : ℚ} (h : isRepr c q) : isRepr c (-q) := by
  obtain ⟨M, eM, h1, h2, h3, h4⟩ := (isRepr_iff c q).mp h
  rw [isRepr_iff]
  refine ⟨-M, eM, h1, by rwa [abs_neg], by rw [h3]; push_cast; ring, by rwa [abs_neg]⟩

theorem repr_zero {c : FloatCfg} (h : 0 ≤ maxFinite c) : isRepr c 0 := by
  rw [isRepr_iff]
  exact ⟨0, c.emin, le_refl _, by positivity, by norm_num, by simpa using h⟩

theorem rnd_repr {c : FloatCfg} {q : ℚ} (hp : 1 ≤ c.prec)
    (hb : |rndCore c q| ≤ maxFinite c) : isRepr c (rndCore c q) := by
  apply mul2_cexp_to_repr _ hb
  rcases eq_or_ne (rndCore c q) 0 with hr0 | hr0
  · rw [hr0]
    exact Mul2.zero _
  · have hq0 : q ≠ 0 := by
      intro hc
      apply hr0
      rw [hc, rnd_zero]
    set e := cexp c q with he
    set R := rhe (q * (2:ℚ) ^ (-e)) with hR
    have hrnd : rndCore c q = ((R : ℤ) : ℚ) * (2:ℚ) ^ e := by
      rw [rndCore_eq, ← he, ← hR]
    have hR0 : R ≠ 0 := by
      intro hc
      apply hr0
      rw [hrnd, hc]
      norm_num
    have hs_abs : |q * (2:ℚ) ^ (-e)| < (2:ℚ) ^ (c.prec : ℤ) := by
      rw [abs_mul, abs_of_pos (two_zpow_pos _)]
      have h1 : |q| < (2:ℚ) ^ (e + c.prec) := he ▸ abs_lt_pow_cexp hq0
      calc |q| * (2:ℚ) ^ (-e) < (2:ℚ) ^ (e + c.prec) * (2:ℚ) ^ (-e) := by
            exact mul_lt_mul_of_pos_right h1 (two_zpow_pos _)
        _ = (2:ℚ) ^ (c.prec : ℤ) := by
            rw [← zpow_add₀ (by norm_num : (2:ℚ) ≠ 0)]
            congr 1
            omega
    have hcastp : (((2 ^ c.prec : ℤ)) : ℚ) = (2:ℚ) ^ (c.prec : ℤ) := by
      push_cast
      rw [← zpow_natCast]
    have hRub : R ≤ 2 ^ c.prec := by
      have hfl : ⌊q * (2:ℚ) ^ (-e)⌋ < (2 ^ c.prec : ℤ) := by
        rw [Int.floor_lt, hcastp]
        calc q * (2:ℚ) ^ (-e) ≤ |q * (2:ℚ) ^ (-e)| := le_abs_self _
          _ < (2:ℚ) ^ (c.prec : ℤ) := hs_abs
      have := rhe_le_floor_add_one (q * (2:ℚ) ^ (-e))
      rw [← hR] at this
      omega
    have hRlb : -(2 ^ c.prec : ℤ) ≤ R := by
      have hfl : -(2 ^ c.prec : ℤ) ≤ ⌊q * (2:ℚ) ^ (-e)⌋ := by
        rw [Int.le_floor]
        push_cast
        rw [show ((2:ℚ) ^ c.prec : ℚ) = (2:ℚ) ^ (c.prec : ℤ) from (zpow_natCast 2 c.prec).symm]
        have := neg_abs_le (q * (2:ℚ) ^ (-e))
        linarith [hs_abs]
      have := rhe_floor_le (q * (2:ℚ) ^ (-e))
      rw [← hR] at this
      omega
    rcases lt_or_eq_of_le (show |R| ≤ 2 ^ c.prec by rw [abs_le]; omega) with hRlt | hReq
    · -- mantissa strictly below 2^prec: representable at the same exponent
      have habs : |rndCore c q| < (2:ℚ) ^ ((c.prec : ℤ) + e) := by
        rw [hrnd, abs_mul, abs_of_pos (two_zpow_pos _)]
        have h1 : |((R : ℤ) : ℚ)| < (2:ℚ) ^ (c.prec : ℤ) := by
          rw [← hcastp]
          exact_mod_cast hRlt
        calc |((R : ℤ) : ℚ)| * (2:ℚ) ^ e < (2:ℚ) ^ (c.prec : ℤ) * (2:ℚ) ^ e :=
              mul_lt_mul_of_pos_right h1 (two_zpow_pos _)
          _ = (2:ℚ) ^ ((c.prec : ℤ) + e) := by
              rw [← zpow_add₀ (by norm_num : (2:ℚ) ≠ 0)]
      have hlog : ilog2 |rndCore c q| < (c.prec : ℤ) + e := ilog2_lt_of_abs_lt hr0 habs
      have hcle : cexp c (rndCore c q) ≤ e := by
        rw [cexp_eq]
        have := cexp_ge_emin c q
        rw [← he] at this
        omega
      exact Mul2.mono hcle ⟨R, hrnd⟩
    · -- mantissa exactly 2^prec: renormalize one binade up
      have habs2 : |rndCore c q| = (2:ℚ) ^ ((c.prec : ℤ) + e) := by
        rw [hrnd, abs_mul, abs_of_pos (two_zpow_pos _)]
        have h1 : |((R : ℤ) : ℚ)| = (2:ℚ) ^ (c.prec : ℤ) := by
          rw [← hcastp]
          exact_mod_cast hReq
        rw [h1, ← zpow_add₀ (by norm_num : (2:ℚ) ≠ 0)]
      have hlog : ilog2 |rndCore c q| = (c.prec : ℤ) + e := by
        rw [habs2, ilog2_two_zpow]
      have hcex : cexp c (rndCore c q) = e + 1 := by
        rw [cexp_eq, hlog]
        have := cexp_ge_emin c q
        rw [← he] at this
        omega
      rw [hcex]
      rcases abs_eq (by positivity : (0:ℤ) ≤ 2 ^ c.prec) |>.mp hReq with hRv | hRv
      · refine ⟨2 ^ (c.prec - 1), ?_⟩
        rw [hrnd, hRv]
        push_cast
        rw [← zpow_natCast (2:ℚ) c.prec, ← zpow_natCast (2:ℚ) (c.prec - 1),
          ← zpow_add₀ (by norm_num : (2:ℚ) ≠ 0), ← zpow_add₀ (by norm_num : (2:ℚ) ≠ 0)]
        congr 1
        omega
      · refine ⟨-(2 ^ (c.prec - 1)), ?_⟩
        rw [hrnd, hRv]
        push_cast
        rw [neg_mul, neg_mul, neg_inj]
        rw [← zpow_natCast (2:ℚ) c.prec, ← zpow_natCast (2:ℚ) (c.prec - 1),
          ← zpow_add₀ (by norm_num : (2:ℚ) ≠ 0), ← zpow_add₀ (by norm_num : (2:ℚ) ≠ 0)]
        congr 1
        omega

theorem sub_repr {c : FloatCfg} {a b : ℚ} (ha : isRepr c a) (hb : isRepr c b)
    (h1 : |a - b| ≤ |a|) (h2 : |a - b| ≤ |b|) : isRepr c (a - b) := by
  rcases eq_or_ne (a - b) 0 with hd0 | hd0
  · rw [hd0]
    exact repr_zero (le_trans (abs_nonneg b) (repr_abs_le hb))
  · have ha0 : a ≠ 0 := by
      intro hc
      subst hc
      apply hd0
      have h1b : |0 - b| ≤ 0 := by simpa using h1
      exact abs_eq_zero.mp (le_antisymm h1b (abs_nonneg _))
    have hb0 : b ≠ 0 := by
      intro hc
      subst hc
      apply hd0
      have h2b : |a - 0| ≤ 0 := by simpa using h2
      exact abs_eq_zero.mp (le_antisymm h2b (abs_nonneg _))
    have hma := repr_mul2_cexp ha
    have hmb := repr_mul2_cexp hb
    have hca : cexp c (a - b) ≤ cexp c a := cexp_mono hd0 h1
    have hcb : cexp c (a - b) ≤ cexp c b := cexp_mono hd0 h2
    have hda : Mul2 a (cexp c (a - b)) := Mul2.mono hca hma
    have hdb : Mul2 b (cexp c (a - b)) := Mul2.mono hcb hmb
    exact mul2_cexp_to_repr (Mul2.sub hda hdb)
      (le_trans h1 (repr_abs_le ha))

theorem add_repr {c : FloatCfg} {a b : ℚ} (ha : isRepr c a) (hb : isRepr c b)
    (h1 : |a + b| ≤ |a|) (h2 : |a + b| ≤ |b|) : isRepr c (a + b) := by
  have h := sub_repr ha (repr_neg hb) (by rwa [sub_neg_eq_add]) (by rw [sub_neg_eq_add, abs_neg]; exact h2)
  rwa [sub_neg_eq_add] at h

theorem intTrunc_abs_lt (x : ℚ) : |x - (intTrunc x : ℚ)| < 1 := by
  rw [intTrunc_eq]
  split
  · next h =>
    have h1 := Int.floor_le x
    have h2 := Int.lt_floor_add_one x
    rw [abs_lt]
    constructor <;> [linarith; linarith]
  · next h =>
    push_neg at h
    have h1 := Int.floor_le (-x)
    have h2 := Int.lt_floor_add_one (-x)
    rw [abs_lt]
    push_cast
    constructor <;> [linarith; linarith]

theorem intTrunc_of_abs_lt {x : ℚ} (h : |x| < 1) : intTrunc x = 0 := by
  rw [intTrunc_eq]
  rw [abs_lt] at h
  split
  · next h0 =>
    have : ⌊x⌋ = 0 := Int.floor_eq_iff.mpr (by
      constructor
      · exact_mod_cast h0
      · push_cast
        linarith)
    omega
  · next h0 =>
    push_neg at h0
    have : ⌊-x⌋ = 0 := Int.floor_eq_iff.mpr (by
      constructor
      · push_cast
        linarith
      · push_cast
        linarith)
    omega

/-! ### The floating-point datum

A value of `Fp` is a NaN, a signed infinity, a signed zero, or a nonzero
finite value given by its exact rational value.  Well-formed values
(`WF`) have representable nonzero rationals in the `fin` constructor, so
that distinct `Fp` values correspond exactly to distinct bit patterns of
the Rust float (NaN payloads aside). -/

inductive Fp where
  | nan : Fp
  | inf (neg : Bool) : Fp
  | zero (neg : Bool) : Fp
  | fin (q : ℚ) : Fp
deriving DecidableEq

/-- Well-formed floating-point datum of format `c`. -/
def WF (c : FloatCfg) : Fp → Prop
  | Fp.fin q => q ≠ 0 ∧ isRepr c q
  | _ => True

/-- The rational value of a floating-point datum (zeros count as `0`; NaN
and infinities are given the junk value `0` and must be excluded by the
context). -/
def fval : Fp → ℚ
  | Fp.zero _ => 0
  | Fp.fin q => q
  | _ => 0

/-- Whether the datum is NaN, as the Rust `is_nan`. -/
def isNanB : Fp → Bool
  | Fp.nan => true
  | _ => false

/-- Whether the datum is finite (zero or a nonzero finite value). -/
def isFiniteB : Fp → Bool
  | Fp.zero _ => true
  | Fp.fin _ => true
  | _ => false

/-- IEEE negation: exact sign flip, as Rust unary `-` on floats. -/
def fneg : Fp → Fp
  | Fp.nan => Fp.nan
  | Fp.inf s => Fp.inf (!s)
  | Fp.zero s => Fp.zero (!s)
  | Fp.fin q => Fp.fin (rneg q)

/-- Rounding of an exact nonzero rational to a floating-point datum:
round to nearest, ties to even, with IEEE overflow to infinity and
underflow to a zero carrying the sign of the exact value. -/
def rndFp (c : FloatCfg) (q : ℚ) : Fp :=
  if q = 0 then Fp.zero false
  else if rndCore c q = 0 then Fp.zero (decide (q < 0))
  else if maxFinite c < rabs (rndCore c q) then Fp.inf (decide (q < 0))
  else Fp.fin (rndCore c q)

/-- IEEE addition, as Rust `+` on floats. -/
def flAdd (c : FloatCfg) : Fp → Fp → Fp
  | Fp.nan, _ => Fp.nan
  | _, Fp.nan => Fp.nan
  | Fp.inf s, Fp.inf t => if s = t then Fp.inf s else Fp.nan
  | Fp.inf s, _ => Fp.inf s
  | _, Fp.inf t => Fp.inf t
  | Fp.zero s, Fp.zero t => Fp.zero (s && t)
  | Fp.zero _, Fp.fin q => Fp.fin q
  | Fp.fin q, Fp.zero _ => Fp.fin q
  | Fp.fin a, Fp.fin b => rndFp c (radd a b)

/-- IEEE subtraction, as Rust `-` on floats (equal to adding the negation). -/
def flSub (c : FloatCfg) (x y : Fp) : Fp := flAdd c x (fneg y)

/-- IEEE multiplication, as Rust `*` on floats. -/
def flMul (c : FloatCfg) : Fp → Fp → Fp
  | Fp.nan, _ => Fp.nan
  | _, Fp.nan => Fp.nan
  | Fp.inf s, Fp.inf t => Fp.inf (xor s t)
  | Fp.inf _, Fp.zero _ => Fp.nan
  | Fp.zero _, Fp.inf _ => Fp.nan
  | Fp.inf s, Fp.fin q => Fp.inf (xor s (decide (q < 0)))
  | Fp.fin q, Fp.inf s => Fp.inf (xor (decide (q < 0)) s)
  | Fp.zero s, Fp.zero t => Fp.zero (xor s t)
  | Fp.zero s, Fp.fin q => Fp.zero (xor s (decide (q < 0)))
  | Fp.fin q, Fp.zero s => Fp.zero (xor (decide (q < 0)) s)
  | Fp.fin a, Fp.fin b => rndFp c (rmul a b)

/-- IEEE division, as Rust `/` on floats. -/
def flDiv (c : FloatCfg) : Fp → Fp → Fp
  | Fp.nan, _ => Fp.nan
  | _, Fp.nan => Fp.nan
  | Fp.inf _, Fp.inf _ => Fp.nan
  | Fp.inf s, Fp.zero t => Fp.inf (xor s t)
  | Fp.inf s, Fp.fin q => Fp.inf (xor s (decide (q < 0)))
  | Fp.zero s, Fp.inf t => Fp.zero (xor s t)
  | Fp.zero _, Fp.zero _ => Fp.nan
  | Fp.zero s, Fp.fin q => Fp.zero (xor s (decide (q < 0)))
  | Fp.fin q, Fp.inf s => Fp.zero (xor (decide (q < 0)) s)
  | Fp.fin q, Fp.zero s => Fp.inf (xor (decide (q < 0)) s)
  | Fp.fin a, Fp.fin b => rndFp c (rdiv a b)

/-- IEEE remainder with truncated quotient, as Rust `%` on floats: the
result is exact, has the sign of the dividend when zero, and `x % inf`
is `x` for finite `x`. -/
def flRem : Fp → Fp → Fp
  | Fp.nan, _ => Fp.nan
  | _, Fp.nan => Fp.nan
  | Fp.inf _, _ => Fp.nan
  | Fp.zero _, Fp.inf _ => Fp.zero false
  | Fp.zero s, Fp.zero _ => Fp.nan
  | Fp.zero s, Fp.fin _ => Fp.zero s
  | Fp.fin q, Fp.inf _ => Fp.fin q
  | Fp.fin _, Fp.zero _ => Fp.nan
  | Fp.fin a, Fp.fin b =>
      if rsub a (rmul b (mkRat (intTrunc (rdiv a b)) 1)) = 0 then
        Fp.zero (decide (a < 0))
      else Fp.fin (rsub a (rmul b (mkRat (intTrunc (rdiv a b)) 1)))

/-- IEEE strictly-less-than, as Rust `<` on floats (false on NaN). -/
def flLtB : Fp → Fp → Bool
  | Fp.nan, _ => false
  | _, Fp.nan => false
  | Fp.inf s, Fp.inf t => s && !t
  | Fp.inf s, _ => s
  | _, Fp.inf t => !t
  | Fp.zero _, Fp.zero _ => false
  | Fp.zero _, Fp.fin q => decide (0 < q)
  | Fp.fin q, Fp.zero _ => decide (q < 0)
  | Fp.fin a, Fp.fin b => decide (a < b)

/-- IEEE less-or-equal, as Rust `<=` on floats (false on NaN). -/
def flLeB : Fp → Fp → Bool
  | Fp.nan, _ => false
  | _, Fp.nan => false
  | Fp.inf s, Fp.inf t => s || !t
  | Fp.inf s, _ => s
  | _, Fp.inf t => !t
  | Fp.zero _, Fp.zero _ => true
  | Fp.zero _, Fp.fin q => decide (0 ≤ q)
  | Fp.fin q, Fp.zero _ => decide (q ≤ 0)
  | Fp.fin a, Fp.fin b => decide (a ≤ b)

/-- IEEE equality, as Rust `==` on floats (false on NaN, `-0 == +0`). -/
def flEqB : Fp → Fp → Bool
  | Fp.nan, _ => false
  | _, Fp.nan => false
  | Fp.inf s, Fp.inf t => s == t
  | Fp.inf _, _ => false
  | _, Fp.inf _ => false
  | Fp.zero _, Fp.zero _ => true
  | Fp.zero _, Fp.fin q => decide (q = 0)
  | Fp.fin q, Fp.zero _ => decide (q = 0)
  | Fp.fin a, Fp.fin b => decide (a = b)

/-! ### The angle types, translated from src/angle.rs and src/unbounded.rs

`Angle` and `AngleUnbounded` each wrap a single float (field `radians`),
as in the Rust source.  Operations take the `FloatCfg` describing the
float type `F`, mirroring the `F: Float` generic of the source. -/

structure Angle where
  radians : Fp
deriving DecidableEq

structure AngleUnbounded where
  radians : Fp
deriving DecidableEq

/-- `Angle::from_radians_unchecked`: store the value, no normalization. -/
def Angle.from_radians_unchecked (radians : Fp) : Angle := ⟨radians⟩

/-- `Angle::from_radians_partially_unchecked`: a single `±τ` correction,
valid for inputs already within `[-2τ, 2τ]`.  The `debug_assert!` of the
source is modelled separately where needed. -/
def Angle.from_radians_partially_unchecked (c : FloatCfg) (radians : Fp) : Angle :=
  Angle.from_radians_unchecked
    (if flLtB (Fp.fin c.pi) radians then flSub c radians (Fp.fin c.tau)
     else if flLeB radians (fneg (Fp.fin c.pi)) then flAdd c radians (Fp.fin c.tau)
     else radians)

/-- `Angle::from_radians`: truncating remainder by `τ`, then one correction. -/
def Angle.from_radians (c : FloatCfg) (radians : Fp) : Angle :=
  Angle.from_radians_partially_unchecked c (flRem radians (Fp.fin c.tau))

/-- `Angle::from_degrees`. -/
def Angle.from_degrees (c : FloatCfg) (degrees : Fp) : Angle :=
  Angle.from_radians c (flMul c degrees (Fp.fin c.degToRad))

/-- `Angle::from_turns`: the remainder by one turn is taken before the
unit conversion, to avoid overflow on huge inputs. -/
def Angle.from_turns (c : FloatCfg) (turns : Fp) : Angle :=
  Angle.from_radians_partially_unchecked c
    (flMul c (flRem turns (Fp.fin c.one)) (Fp.fin c.turnsToRad))

/-- `Angle::from_gradians`. -/
def Angle.from_gradians (c : FloatCfg) (gradians : Fp) : Angle :=
  Angle.from_radians c (flMul c gradians (Fp.fin c.gradToRad))

/-- `Angle::to_radians`: returns the stored value unchanged. -/
def Angle.to_radians (a : Angle) : Fp := a.radians

/-- `Angle::is_nan`. -/
def Angle.is_nan (a : Angle) : Bool := isNanB a.radians

/-- `AngleUnbounded::from_radians`: the identity embedding. -/
def AngleUnbounded.from_radians (radians : Fp) : AngleUnbounded := ⟨radians⟩

/-- `AngleUnbounded::from_degrees`: unit conversion, no normalization. -/
def AngleUnbounded.from_degrees (c : FloatCfg) (degrees : Fp) : AngleUnbounded :=
  AngleUnbounded.from_radians (flMul c degrees (Fp.fin c.degToRad))

/-- `AngleUnbounded::from_turns`: unit conversion, no remainder first. -/
def AngleUnbounded.from_turns (c : FloatCfg) (turns : Fp) : AngleUnbounded :=
  AngleUnbounded.from_radians (flMul c turns (Fp.fin c.turnsToRad))

/-- `AngleUnbounded::from_gradians`. -/
def AngleUnbounded.from_gradians (c : FloatCfg) (gradians : Fp) : AngleUnbounded :=
  AngleUnbounded.from_radians (flMul c gradians (Fp.fin c.gradToRad))

/-- `AngleUnbounded::to_radians`. -/
def AngleUnbounded.to_radians (a : AngleUnbounded) : Fp := a.radians

/-- `AngleUnbounded::to_bounded`: apply the full normalization. -/
def AngleUnbounded.to_bounded (c : FloatCfg) (a : AngleUnbounded) : Angle :=
  Angle.from_radians c a.radians

/-- `Angle::to_unbounded`: copies the stored value with no transformation. -/
def Angle.to_unbounded (a : Angle) : AngleUnbounded :=
  AngleUnbounded.from_radians a.radians

/-- `impl From<AngleUnbounded<F>> for Angle<F>`. -/
def Angle.fromUnbounded (c : FloatCfg) (u : AngleUnbounded) : Angle :=
  Angle.from_radians c u.to_radians

/-- `impl Neg for Angle`: the angle `π` is returned unchanged; any other
value is negated exactly, without re-normalization. -/
def Angle.neg (c : FloatCfg) (a : Angle) : Angle :=
  if flEqB a.radians (Fp.fin c.pi) then a
  else Angle.from_radians_unchecked (fneg a.radians)

/-- `impl Add for Angle`. -/
def Angle.add (c : FloatCfg) (a b : Angle) : Angle :=
  Angle.from_radians c (flAdd c a.radians b.radians)

/-- `impl Sub for Angle`. -/
def Angle.sub (c : FloatCfg) (a b : Angle) : Angle :=
  Angle.from_radians c (flSub c a.radians b.radians)

/-- `impl Mul<F> for Angle`. -/
def Angle.mulScalar (c : FloatCfg) (a : Angle) (s : Fp) : Angle :=
  Angle.from_radians c (flMul c a.radians s)

/-- `impl Div<F> for Angle`. -/
def Angle.divScalar (c : FloatCfg) (a : Angle) (s : Fp) : Angle :=
  Angle.from_radians c (flDiv c a.radians s)

/-- `impl Sum for Angle`: accumulate the raw radian values from `0.0`,
then normalize once. -/
def Angle.sum (c : FloatCfg) (l : List Angle) : Angle :=
  Angle.from_radians c (l.foldl (fun acc a => flAdd c acc a.radians) (Fp.zero false))

/-- The derived `PartialEq` of `Angle`: float equality of the stored values. -/
def angleEq (a b : Angle) : Bool := flEqB a.radians b.radians

/-- The canonical-range invariant of `Angle`: NaN, or `-π <` value `≤ π`. -/
def inRange (c : FloatCfg) : Fp → Prop
  | Fp.nan => True
  | Fp.inf _ => False
  | Fp.zero _ => True
  | Fp.fin q => -c.pi < q ∧ q ≤ c.pi

/-! ### The two concrete formats

Exact values of the constants of `impl Float for f32` and
`impl Float for f64` in src/float.rs. -/

/-- IEEE-754 binary32 with the constants of `impl Float for f32`. -/
def f32Cfg : FloatCfg where
  prec := 24
  emin := -149
  emax := 104
  pi := mkRat 13176795 4194304
  tau := mkRat 13176795 2097152
  one := mkRat 1 1
  degToRad := mkRat 9370165 536870912
  turnsToRad := mkRat 13176795 2097152
  gradToRad := mkRat 8433149 536870912

/-- IEEE-754 binary64 with the constants of `impl Float for f64`. -/
def f64Cfg : FloatCfg where
  prec := 53
  emin := -1074
  emax := 971
  pi := mkRat 884279719003555 281474976710656
  tau := mkRat 884279719003555 140737488355328
  one := mkRat 1 1
  degToRad := mkRat 5030569068109113 288230376151711744
  turnsToRad := mkRat 884279719003555 140737488355328
  gradToRad := mkRat 2263756080649101 144115188075855872

/-- `Angle::<f32>::to_f64`: widening is exact, the value is reused via the
unchecked constructor. -/
def Angle.to_f64 (a : Angle) : Angle := Angle.from_radians_unchecked a.radians

/-- The condition of the `debug_assert!` inside `Angle::<f32>::to_f64`:
the widened value is NaN or lies in `(-π, π]` at `f64` precision. -/
def to_f64_assert (a : Angle) : Bool :=
  isNanB a.radians ||
    (flLtB (fneg (Fp.fin f64Cfg.pi)) a.radians && flLeB a.radians (Fp.fin f64Cfg.pi))

/-- Rust `as f32` on an `f64` value: round to nearest even, overflow to
infinity. -/
def cast64to32 : Fp → Fp
  | Fp.nan => Fp.nan
  | Fp.inf s => Fp.inf s
  | Fp.zero s => Fp.zero s
  | Fp.fin q => rndFp f32Cfg q

/-- `Angle::<f64>::to_f32`: narrow, then re-normalize via `from_radians`. -/
def Angle.to_f32 (a : Angle) : Angle :=
  Angle.from_radians f32Cfg (cast64to32 a.radians)

/-- The facts about a format and its constants that the proofs use; both
concrete formats satisfy them. -/
def Valid (c : FloatCfg) : Prop :=
  2 ≤ c.prec ∧ c.emin ≤ -(c.prec : ℤ) ∧ c.emin ≤ c.emax ∧
  isRepr c c.pi ∧ isRepr c c.tau ∧ isRepr c c.one ∧
  isRepr c c.degToRad ∧ isRepr c c.gradToRad ∧
  c.tau = 2 * c.pi ∧ c.turnsToRad = c.tau ∧ c.one = 1 ∧
  2 < c.pi ∧ c.pi < 4 ∧
  0 < c.degToRad ∧ c.degToRad < 1 ∧ 0 < c.gradToRad ∧ c.gradToRad < 1

set_option maxRecDepth 8000 in
theorem valid_f64 : Valid f64Cfg := by
  refine ⟨by norm_num [f64Cfg], by norm_num [f64Cfg], by norm_num [f64Cfg],
    ⟨884279719003555, -48, by decide, by decide, by decide, by decide⟩,
    ⟨884279719003555, -47, by decide, by decide, by decide, by decide⟩,
    ⟨1, 0, by decide, by decide, by decide, by decide⟩,
    ⟨5030569068109113, -58, by decide, by decide, by decide, by decide⟩,
    ⟨2263756080649101, -57, by decide, by decide, by decide, by decide⟩,
    by rw [two_mul, ← radd_eq]; decide,
    by decide, by decide, by decide, by decide, by decide, by decide, by decide, by decide⟩

set_option maxRecDepth 8000 in
theorem valid_f32 : Valid f32Cfg := by
  refine ⟨by norm_num [f32Cfg], by norm_num [f32Cfg], by norm_num [f32Cfg],
    ⟨13176795, -22, by decide, by decide, by decide, by decide⟩,
    ⟨13176795, -21, by decide, by decide, by decide, by decide⟩,
    ⟨1, 0, by decide, by decide, by decide, by decide⟩,
    ⟨9370165, -29, by decide, by decide, by decide, by decide⟩,
    ⟨8433149, -29, by decide, by decide, by decide, by decide⟩,
    by rw [two_mul, ← radd_eq]; decide,
    by decide, by decide, by decide, by decide, by decide, by decide, by decide, by decide⟩

/-! ### Exactness and well-formedness of the floating-point operations -/

theorem rneg_rneg (a : ℚ) : rneg (rneg a) = a := by
  rw [rneg_eq, rneg_eq, neg_neg]

theorem fneg_fneg (x : Fp) : fneg (fneg x) = x := by
  cases x <;> simp [fneg, rneg_rneg]

theorem maxFinite_nonneg (c : FloatCfg) : 0 ≤ maxFinite c := by
  rw [maxFinite_eq]
  positivity

theorem maxFinite_repr {c : FloatCfg} (h : c.emin ≤ c.emax) : isRepr c (maxFinite c) := by
  rw [isRepr_iff]
  refine ⟨((2 ^ c.prec - 1 : ℕ) : ℤ), c.emax, h, ?_, ?_, ?_⟩
  · rw [abs_of_nonneg (by positivity)]
    have hlt : (2 ^ c.prec - 1 : ℕ) < 2 ^ c.prec :=
      Nat.sub_lt (Nat.pos_of_ne_zero (by positivity)) one_pos
    exact_mod_cast hlt
  · rw [maxFinite_eq]
    norm_cast
  · rw [abs_of_nonneg (maxFinite_nonneg c)]

theorem Mul2.intMul {b : ℚ} {e : ℤ} (k : ℤ) (hb : Mul2 b e) : Mul2 ((k : ℚ) * b) e := by
  obtain ⟨M, hM⟩ := hb
  refine ⟨k * M, ?_⟩
  rw [hM]
  push_cast
  ring

theorem intTrunc_le_abs (x : ℚ) : |((intTrunc x : ℤ) : ℚ)| ≤ |x| := by
  rw [intTrunc_eq]
  split
  · next h =>
    rw [abs_of_nonneg (by exact_mod_cast Int.floor_nonneg.mpr h), abs_of_nonneg h]
    exact Int.floor_le x
  · next h =>
    push_neg at h
    have h1 : (0:ℚ) ≤ -x := by linarith
    have h2 : (0:ℤ) ≤ ⌊-x⌋ := Int.floor_nonneg.mpr h1
    rw [abs_of_neg h]
    push_cast
    rw [abs_neg, abs_of_nonneg (by exact_mod_cast h2 : (0:ℚ) ≤ (⌊-x⌋ : ℚ))]
    exact Int.floor_le (-x)

theorem rem_bound {a b : ℚ} (hb : b ≠ 0) :
    |a - ((intTrunc (a / b) : ℤ) : ℚ) * b| ≤ |a| ∧
    |a - ((intTrunc (a / b) : ℤ) : ℚ) * b| < |b| := by
  set k := intTrunc (a / b) with hk
  have hbpos : 0 < |b| := abs_pos.mpr hb
  have h1 : |a / b - (k : ℚ)| < 1 := intTrunc_abs_lt _
  have hdiff : a - (k : ℚ) * b = (a / b - (k : ℚ)) * b := by
    rw [sub_mul, div_mul_cancel₀ _ hb]
  have hlt : |a - (k : ℚ) * b| < |b| := by
    calc |a - (k : ℚ) * b| = |a / b - (k : ℚ)| * |b| := by rw [hdiff, abs_mul]
      _ < 1 * |b| := mul_lt_mul_of_pos_right h1 hbpos
      _ = |b| := one_mul _
  refine ⟨?_, hlt⟩
  rcases eq_or_ne k 0 with hk0 | hk0
  · rw [hk0]
    push_cast
    rw [zero_mul, sub_zero]
  · have hk1 : (1:ℚ) ≤ |(k : ℚ)| := by exact_mod_cast Int.one_le_abs hk0
    have h2 : (1:ℚ) ≤ |a / b| := le_trans hk1 (hk ▸ intTrunc_le_abs (a / b))
    have h3 : |b| ≤ |a| := by
      rw [abs_div] at h2
      rw [le_div_iff hbpos] at h2
      linarith
    linarith

theorem rem_repr {c : FloatCfg} {a b : ℚ} (ha : isRepr c a) (hb : isRepr c b)
    {k : ℤ} (h1 : |a - (k : ℚ) * b| ≤ |a|) (h2 : |a - (k : ℚ) * b| ≤ |b|) :
    isRepr c (a - (k : ℚ) * b) := by
  rcases eq_or_ne (a - (k : ℚ) * b) 0 with hd0 | hd0
  · rw [hd0]
    exact repr_zero (le_trans (abs_nonneg a) (repr_abs_le ha))
  · have ha0 : a ≠ 0 := by
      intro hc
      apply hd0
      subst hc
      rw [abs_zero] at h1
      exact abs_eq_zero.mp (le_antisymm h1 (abs_nonneg _))
    have hb0 : b ≠ 0 := by
      intro hc
      apply hd0
      subst hc
      rw [abs_zero] at h2
      exact abs_eq_zero.mp (le_antisymm h2 (abs_nonneg _))
    have hca : cexp c (a - (k : ℚ) * b) ≤ cexp c a := cexp_mono hd0 h1
    have hcb : cexp c (a - (k : ℚ) * b) ≤ cexp c b := cexp_mono hd0 h2
    have hda : Mul2 a (cexp c (a - (k : ℚ) * b)) := Mul2.mono hca (repr_mul2_cexp ha)
    have hdb : Mul2 ((k : ℚ) * b) (cexp c (a - (k : ℚ) * b)) :=
      Mul2.intMul k (Mul2.mono hcb (repr_mul2_cexp hb))
    exact mul2_cexp_to_repr (Mul2.sub hda hdb) (le_trans h1 (repr_abs_le ha))

theorem flRem_fin_eq (a b : ℚ) :
    flRem (Fp.fin a) (Fp.fin b) =
      (if a - ((intTrunc (a / b) : ℤ) : ℚ) * b = 0 then Fp.zero (decide (a < 0))
       else Fp.fin (a - ((intTrunc (a / b) : ℤ) : ℚ) * b)) := by
  have hm : rsub a (rmul b (mkRat (intTrunc (rdiv a b)) 1)) =
      a - ((intTrunc (a / b) : ℤ) : ℚ) * b := by
    rw [rsub_eq, rmul_eq, Rat.mkRat_one, rdiv_eq]
    ring
  simp only [flRem]
  rw [hm]

theorem rndFp_zero (c : FloatCfg) : rndFp c 0 = Fp.zero false := by
  rw [rndFp, if_pos rfl]

theorem rndFp_exact {c : FloatCfg} {q : ℚ} (h : isRepr c q) (h0 : q ≠ 0) :
    rndFp c q = Fp.fin q := by
  have hc : rndCore c q = q := rnd_of_mul2 (repr_mul2_cexp h)
  unfold rndFp
  rw [hc, if_neg h0, if_neg h0,
    if_neg (not_lt.mpr (by rw [rabs_eq]; exact repr_abs_le h))]

theorem rndFp_WF {c : FloatCfg} (hp : 1 ≤ c.prec) (q : ℚ) : WF c (rndFp c q) := by
  unfold rndFp
  split
  · trivial
  split
  · trivial
  split
  · trivial
  rename_i hq0 hr0 hmax
  exact ⟨hr0, rnd_repr hp (by rw [← rabs_eq]; exact le_of_not_lt hmax)⟩

theorem rndFp_bound {c : FloatCfg} (hp : 1 ≤ c.prec) {q t : ℚ} (ht : isRepr c t)
    (h : |q| ≤ t) :
    isFiniteB (rndFp c q) = true ∧ WF c (rndFp c q) ∧ |fval (rndFp c q)| ≤ t := by
  have ht0 : 0 ≤ t := le_trans (abs_nonneg q) h
  have hmax : t ≤ maxFinite c := le_trans (le_abs_self t) (repr_abs_le ht)
  have habs : |rndCore c q| ≤ t := rnd_abs_le h (repr_mul2_cexp ht)
  unfold rndFp
  split
  · exact ⟨rfl, trivial, by simpa [fval] using ht0⟩
  split
  · exact ⟨rfl, trivial, by simpa [fval] using ht0⟩
  split
  · rename_i hov
    rw [rabs_eq] at hov
    exact absurd (lt_of_lt_of_le hov (le_trans habs hmax)) (lt_irrefl _)
  rename_i hq0 hr0 hmax2
  exact ⟨rfl, ⟨hr0, rnd_repr hp (le_trans habs hmax)⟩, by simpa [fval] using habs⟩

theorem fneg_WF {c : FloatCfg} {x : Fp} (h : WF c x) : WF c (fneg x) := by
  cases x with
  | fin q =>
    obtain ⟨h0, hr⟩ := h
    refine ⟨?_, ?_⟩
    · rw [rneg_eq]
      exact neg_ne_zero.mpr h0
    · rw [rneg_eq]
      exact repr_neg hr
  | nan => trivial
  | inf s => trivial
  | zero s => trivial

theorem flAdd_WF {c : FloatCfg} (hp : 1 ≤ c.prec) {x y : Fp}
    (hx : WF c x) (hy : WF c y) : WF c (flAdd c x y) := by
  cases x <;> cases y <;> simp only [flAdd] <;>
    first
      | trivial
      | exact hx
      | exact hy
      | exact rndFp_WF hp _
      | (split <;> trivial)

theorem flMul_WF {c : FloatCfg} (hp : 1 ≤ c.prec) (x y : Fp) : WF c (flMul c x y) := by
  cases x <;> cases y <;> simp only [flMul] <;>
    first
      | trivial
      | exact rndFp_WF hp _

theorem flDiv_WF {c : FloatCfg} (hp : 1 ≤ c.prec) (x y : Fp) : WF c (flDiv c x y) := by
  cases x <;> cases y <;> simp only [flDiv] <;>
    first
      | trivial
      | exact rndFp_WF hp _

theorem flRem_WF {c : FloatCfg} {x y : Fp} (hx : WF c x) (hy : WF c y) :
    WF c (flRem x y) := by
  cases x with
  | fin a =>
    cases y with
    | fin b =>
      obtain ⟨ha0, har⟩ := hx
      obtain ⟨hb0, hbr⟩ := hy
      rw [flRem_fin_eq]
      obtain ⟨h1, h2⟩ := rem_bound (a := a) hb0
      split
      · trivial
      · next hm0 =>
        exact ⟨hm0, rem_repr har hbr h1 (le_of_lt h2)⟩
    | nan => trivial
    | inf s => exact hx
    | zero s => trivial
  | nan => cases y <;> trivial
  | inf s => cases y <;> trivial
  | zero s => cases y <;> trivial

theorem isNanB_of_finite {y : Fp} (h : isFiniteB y = true) : isNanB y = false := by
  cases y with
  | nan => exact nomatch h
  | inf s => exact nomatch h
  | zero s => rfl
  | fin q => rfl

theorem finite_cases {y : Fp} (h : isFiniteB y = true) :
    (∃ s, y = Fp.zero s) ∨ ∃ w, y = Fp.fin w := by
  cases y with
  | zero s => exact Or.inl ⟨s, rfl⟩
  | fin w => exact Or.inr ⟨w, rfl⟩
  | nan => exact nomatch h
  | inf s => exact nomatch h

/-! ### Behaviour of the single-correction step -/

theorem partially_nan (c : FloatCfg) :
    Angle.from_radians_partially_unchecked c Fp.nan = ⟨Fp.nan⟩ := rfl

theorem partially_zero {c : FloatCfg} (hpi : 0 < c.pi) (s : Bool) :
    Angle.from_radians_partially_unchecked c (Fp.zero s) = ⟨Fp.zero s⟩ := by
  simp only [Angle.from_radians_partially_unchecked, Angle.from_radians_unchecked,
    flLtB, fneg, flLeB, rneg_eq, decide_eq_true_eq]
  rw [if_neg (not_lt.mpr (le_of_lt hpi)), if_neg (not_le.mpr (by linarith))]

theorem partially_high {c : FloatCfg} {q : ℚ} (h1 : c.pi < q) :
    Angle.from_radians_partially_unchecked c (Fp.fin q) = ⟨rndFp c (q - c.tau)⟩ := by
  have hcond : flLtB (Fp.fin c.pi) (Fp.fin q) = true := by
    simp only [flLtB, decide_eq_true_eq]
    exact h1
  unfold Angle.from_radians_partially_unchecked Angle.from_radians_unchecked
  rw [if_pos hcond]
  simp only [flSub, fneg, flAdd]
  rw [radd_eq, rneg_eq, ← sub_eq_add_neg]

theorem partially_low {c : FloatCfg} {q : ℚ} (h1 : ¬ c.pi < q) (h2 : q ≤ -c.pi) :
    Angle.from_radians_partially_unchecked c (Fp.fin q) = ⟨rndFp c (q + c.tau)⟩ := by
  have hc1 : ¬ flLtB (Fp.fin c.pi) (Fp.fin q) = true := by
    simp only [flLtB, decide_eq_true_eq]
    exact h1
  have hc2 : flLeB (Fp.fin q) (fneg (Fp.fin c.pi)) = true := by
    simp only [fneg, flLeB, rneg_eq, decide_eq_true_eq]
    exact h2
  unfold Angle.from_radians_partially_unchecked Angle.from_radians_unchecked
  rw [if_neg hc1, if_pos hc2]
  simp only [flAdd]
  rw [radd_eq]

theorem partially_mid {c : FloatCfg} {q : ℚ} (h1 : ¬ c.pi < q) (h2 : ¬ q ≤ -c.pi) :
    Angle.from_radians_partially_unchecked c (Fp.fin q) = ⟨Fp.fin q⟩ := by
  have hc1 : ¬ flLtB (Fp.fin c.pi) (Fp.fin q) = true := by
    simp only [flLtB, decide_eq_true_eq]
    exact h1
  have hc2 : ¬ flLeB (Fp.fin q) (fneg (Fp.fin c.pi)) = true := by
    simp only [fneg, flLeB, rneg_eq, decide_eq_true_eq]
    exact h2
  unfold Angle.from_radians_partially_unchecked Angle.from_radians_unchecked
  rw [if_neg hc1, if_neg hc2]

theorem partially_id {c : FloatCfg} (hpi : 0 < c.pi) {x : Fp} (hin : inRange c x) :
    Angle.from_radians_partially_unchecked c x = ⟨x⟩ := by
  cases x with
  | nan => exact partially_nan c
  | zero s => exact partially_zero hpi s
  | inf s => exact hin.elim
  | fin q =>
    obtain ⟨hl, hr⟩ := hin
    exact partially_mid (not_lt.mpr hr) (not_le.mpr hl)

theorem partially_fin_spec {c : FloatCfg} (hv : Valid c) {q : ℚ}
    (hq : isRepr c q) (hq0 : q ≠ 0) (hle : |q| ≤ c.tau) :
    inRange c ((Angle.from_radians_partially_unchecked c (Fp.fin q)).radians) ∧
    WF c ((Angle.from_radians_partially_unchecked c (Fp.fin q)).radians) ∧
    isFiniteB ((Angle.from_radians_partially_unchecked c (Fp.fin q)).radians) = true ∧
    ∃ k : ℤ, fval ((Angle.from_radians_partially_unchecked c (Fp.fin q)).radians) =
      q - (k : ℚ) * c.tau := by
  obtain ⟨hprec, hem, hee, hpir, htaur, honer, hdegr, hgradr, htau2, hturn, hone1,
    hpi2, hpi4, hdeg0, hdeg1, hgrad0, hgrad1⟩ := hv
  have hpi0 : 0 < c.pi := by linarith
  have htau0 : 0 < c.tau := by rw [htau2]; linarith
  have habsq_le : q ≤ c.tau := le_trans (le_abs_self q) hle
  have habsq_ge : -c.tau ≤ q := by
    have := neg_abs_le q
    linarith [hle]
  by_cases h1 : c.pi < q
  · rw [partially_high h1]
    rcases eq_or_ne (q - c.tau) 0 with hz | hz
    · rw [hz, rndFp_zero]
      refine ⟨trivial, trivial, rfl, 1, ?_⟩
      show (0:ℚ) = q - ((1:ℤ) : ℚ) * c.tau
      push_cast
      linarith [sub_eq_zero.mp hz]
    · have hb1 : |q - c.tau| ≤ |q| := by
        rw [abs_of_pos (by linarith : 0 < q), abs_le]
        constructor
        · linarith
        · linarith
      have hb2 : |q - c.tau| ≤ |c.tau| := by
        rw [abs_of_pos htau0, abs_le]
        constructor
        · linarith
        · linarith
      have hsr : isRepr c (q - c.tau) := sub_repr hq htaur hb1 hb2
      rw [rndFp_exact hsr hz]
      refine ⟨⟨?_, ?_⟩, ⟨hz, hsr⟩, rfl, 1, ?_⟩
      · rw [htau2]
        linarith
      · linarith
      · show q - c.tau = q - ((1:ℤ) : ℚ) * c.tau
        push_cast
        ring
  · by_cases h2 : q ≤ -c.pi
    · rw [partially_low h1 h2]
      rcases eq_or_ne (q + c.tau) 0 with hz | hz
      · rw [hz, rndFp_zero]
        refine ⟨trivial, trivial, rfl, -1, ?_⟩
        show (0:ℚ) = q - ((-1:ℤ) : ℚ) * c.tau
        push_cast
        linarith [hz]
      · have hb1 : |q + c.tau| ≤ |q| := by
          rw [abs_of_neg (by linarith : q < 0), abs_le]
          constructor
          · linarith
          · linarith
        have hb2 : |q + c.tau| ≤ |c.tau| := by
          rw [abs_of_pos htau0, abs_le]
          constructor
          · linarith
          · linarith
        have hsr : isRepr c (q + c.tau) := add_repr hq htaur hb1 hb2
        rw [rndFp_exact hsr hz]
        refine ⟨⟨?_, ?_⟩, ⟨hz, hsr⟩, rfl, -1, ?_⟩
        · have hge : 0 ≤ q + c.tau := by linarith
          rcases lt_or_eq_of_le hge with hgt | heq
          · linarith
          · exact absurd heq.symm hz
        · linarith
        · show q + c.tau = q - ((-1:ℤ) : ℚ) * c.tau
          push_cast
          ring
    · rw [partially_mid h1 h2]
      push_neg at h1 h2
      refine ⟨⟨h2, h1⟩, ⟨hq0, hq⟩, rfl, 0, ?_⟩
      show q = q - ((0:ℤ) : ℚ) * c.tau
      push_cast
      ring

theorem valid_pi_pos {c : FloatCfg} (hv : Valid c) : 0 < c.pi := by
  obtain ⟨-, -, -, -, -, -, -, -, -, -, -, hpi2, -⟩ := hv
  linarith

theorem valid_tau_pos {c : FloatCfg} (hv : Valid c) : 0 < c.tau := by
  obtain ⟨-, -, -, -, -, -, -, -, htau2, -, -, hpi2, -⟩ := hv
  rw [htau2]
  linarith

theorem valid_prec_pos {c : FloatCfg} (hv : Valid c) : 1 ≤ c.prec := by
  obtain ⟨hprec, -⟩ := hv
  omega

theorem from_radians_spec {c : FloatCfg} (hv : Valid c) {x : Fp} (hwf : WF c x) :
    (isFiniteB x = true →
      inRange c ((Angle.from_radians c x).radians) ∧
      WF c ((Angle.from_radians c x).radians) ∧
      isFiniteB ((Angle.from_radians c x).radians) = true ∧
      ∃ k : ℤ, fval ((Angle.from_radians c x).radians) = fval x - (k : ℚ) * c.tau) ∧
    (isFiniteB x = false → (Angle.from_radians c x).radians = Fp.nan) := by
  have hpi0 : 0 < c.pi := valid_pi_pos hv
  have htau0 : 0 < c.tau := valid_tau_pos hv
  have htaune : c.tau ≠ 0 := ne_of_gt htau0
  have htaur : isRepr c c.tau := by
    obtain ⟨-, -, -, -, htaur, -⟩ := hv
    exact htaur
  cases x with
  | nan =>
    refine ⟨fun h => (nomatch h), fun _ => ?_⟩
    unfold Angle.from_radians
    rw [show flRem Fp.nan (Fp.fin c.tau) = Fp.nan from rfl, partially_nan]
  | inf s =>
    refine ⟨fun h => (nomatch h), fun _ => ?_⟩
    unfold Angle.from_radians
    rw [show flRem (Fp.inf s) (Fp.fin c.tau) = Fp.nan from rfl, partially_nan]
  | zero s =>
    refine ⟨fun _ => ?_, fun h => (nomatch h)⟩
    unfold Angle.from_radians
    rw [show flRem (Fp.zero s) (Fp.fin c.tau) = Fp.zero s from rfl, partially_zero hpi0]
    refine ⟨trivial, trivial, rfl, 0, ?_⟩
    show (0:ℚ) = 0 - ((0:ℤ) : ℚ) * c.tau
    push_cast
    ring
  | fin q =>
    obtain ⟨hq0, hqr⟩ := hwf
    refine ⟨fun _ => ?_, fun h => (nomatch h)⟩
    unfold Angle.from_radians
    rw [flRem_fin_eq]
    obtain ⟨hb1, hb2⟩ := rem_bound (a := q) htaune
    rcases eq_or_ne (q - ((intTrunc (q / c.tau) : ℤ) : ℚ) * c.tau) 0 with hm0 | hm0
    · rw [if_pos hm0, partially_zero hpi0]
      refine ⟨trivial, trivial, rfl, intTrunc (q / c.tau), ?_⟩
      show (0:ℚ) = q - ((intTrunc (q / c.tau) : ℤ) : ℚ) * c.tau
      linarith [hm0]
    · rw [if_neg hm0]
      have hmr : isRepr c (q - ((intTrunc (q / c.tau) : ℤ) : ℚ) * c.tau) :=
        rem_repr hqr htaur hb1 (le_of_lt hb2)
      have hmle : |q - ((intTrunc (q / c.tau) : ℤ) : ℚ) * c.tau| ≤ c.tau :=
        le_of_lt (lt_of_lt_of_le hb2 (le_of_eq (abs_of_pos htau0)))
      obtain ⟨hA, hB, hC, k1, hD⟩ := partially_fin_spec hv hmr hm0 hmle
      refine ⟨hA, hB, hC, intTrunc (q / c.tau) + k1, ?_⟩
      rw [hD]
      show q - ((intTrunc (q / c.tau) : ℤ) : ℚ) * c.tau - (k1 : ℚ) * c.tau =
        q - (((intTrunc (q / c.tau) + k1 : ℤ)) : ℚ) * c.tau
      push_cast
      ring

theorem from_radians_inRange {c : FloatCfg} (hv : Valid c) {x : Fp} (hwf : WF c x) :
    inRange c ((Angle.from_radians c x).radians) := by
  cases hfin : isFiniteB x with
  | true => exact ((from_radians_spec hv hwf).1 hfin).1
  | false =>
    rw [(from_radians_spec hv hwf).2 hfin]
    trivial

theorem from_radians_WF {c : FloatCfg} (hv : Valid c) {x : Fp} (hwf : WF c x) :
    WF c ((Angle.from_radians c x).radians) := by
  cases hfin : isFiniteB x with
  | true => exact ((from_radians_spec hv hwf).1 hfin).2.1
  | false =>
    rw [(from_radians_spec hv hwf).2 hfin]
    trivial

theorem from_radians_is_nan {c : FloatCfg} (hv : Valid c) {x : Fp} (hwf : WF c x) :
    (Angle.from_radians c x).is_nan = !(isFiniteB x) := by
  cases hfin : isFiniteB x with
  | true =>
    have h := ((from_radians_spec hv hwf).1 hfin).2.2.1
    show isNanB (Angle.from_radians c x).radians = !true
    rw [isNanB_of_finite h]
    rfl
  | false =>
    show isNanB (Angle.from_radians c x).radians = !false
    rw [(from_radians_spec hv hwf).2 hfin]
    rfl

theorem from_radians_id {c : FloatCfg} (hv : Valid c) {x : Fp} (hwf : WF c x)
    (hin : inRange c x) : Angle.from_radians c x = ⟨x⟩ := by
  have hpi0 : 0 < c.pi := valid_pi_pos hv
  have htau0 : 0 < c.tau := valid_tau_pos hv
  cases x with
  | nan =>
    unfold Angle.from_radians
    rw [show flRem Fp.nan (Fp.fin c.tau) = Fp.nan from rfl, partially_nan]
  | inf s => exact hin.elim
  | zero s =>
    unfold Angle.from_radians
    rw [show flRem (Fp.zero s) (Fp.fin c.tau) = Fp.zero s from rfl, partially_zero hpi0]
  | fin q =>
    obtain ⟨hq0, hqr⟩ := hwf
    obtain ⟨hl, hr⟩ := hin
    have htau2 : c.tau = 2 * c.pi := by
      obtain ⟨-, -, -, -, -, -, -, -, htau2, -⟩ := hv
      exact htau2
    unfold Angle.from_radians
    rw [flRem_fin_eq]
    have htr : intTrunc (q / c.tau) = 0 := by
      apply intTrunc_of_abs_lt
      rw [abs_div, abs_of_pos htau0, div_lt_one htau0]
      have habs : |q| ≤ c.pi := abs_le.mpr ⟨le_of_lt hl, hr⟩
      linarith
    rw [htr]
    have hsimp : q - ((0:ℤ) : ℚ) * c.tau = q := by
      push_cast
      ring
    rw [hsimp, if_neg hq0]
    exact partially_mid (not_lt.mpr hr) (not_le.mpr hl)

theorem flMul_fin_bound {c : FloatCfg} (hp : 1 ≤ c.prec) {a b t : ℚ}
    (ht : isRepr c t) (h : |a * b| ≤ t) :
    isFiniteB (flMul c (Fp.fin a) (Fp.fin b)) = true ∧
    WF c (flMul c (Fp.fin a) (Fp.fin b)) ∧
    |fval (flMul c (Fp.fin a) (Fp.fin b))| ≤ t := by
  have hmul : flMul c (Fp.fin a) (Fp.fin b) = rndFp c (a * b) := by
    simp only [flMul]
    rw [rmul_eq]
  rw [hmul]
  exact rndFp_bound hp ht h

theorem from_degrees_spec {c : FloatCfg} (hv : Valid c) {x : Fp} (hwf : WF c x) :
    inRange c ((Angle.from_degrees c x).radians) ∧
    (Angle.from_degrees c x).is_nan = !(isFiniteB x) := by
  have hp : 1 ≤ c.prec := valid_prec_pos hv
  obtain ⟨-, -, hee, -, -, -, hdegr, -, -, -, -, -, -, hdeg0, hdeg1, -⟩ := id hv
  have hyWF : WF c (flMul c x (Fp.fin c.degToRad)) := flMul_WF hp x _
  have hyfin : isFiniteB (flMul c x (Fp.fin c.degToRad)) = isFiniteB x := by
    cases x with
    | nan => rfl
    | inf s => rfl
    | zero s => rfl
    | fin q =>
      obtain ⟨hq0, hqr⟩ := hwf
      have habs : |q * c.degToRad| ≤ maxFinite c := by
        calc |q * c.degToRad| = |q| * |c.degToRad| := abs_mul _ _
          _ ≤ |q| * 1 := by
              apply mul_le_mul_of_nonneg_left _ (abs_nonneg q)
              rw [abs_of_pos hdeg0]
              exact le_of_lt hdeg1
          _ = |q| := mul_one _
          _ ≤ maxFinite c := repr_abs_le hqr
      exact (flMul_fin_bound hp (maxFinite_repr hee) habs).1
  exact ⟨from_radians_inRange hv hyWF,
    by rw [show Angle.from_degrees c x =
        Angle.from_radians c (flMul c x (Fp.fin c.degToRad)) from rfl,
      from_radians_is_nan hv hyWF, hyfin]⟩

theorem from_gradians_spec {c : FloatCfg} (hv : Valid c) {x : Fp} (hwf : WF c x) :
    inRange c ((Angle.from_gradians c x).radians) ∧
    (Angle.from_gradians c x).is_nan = !(isFiniteB x) := by
  have hp : 1 ≤ c.prec := valid_prec_pos hv
  obtain ⟨-, -, hee, -, -, -, -, hgradr, -, -, -, -, -, -, -, hgrad0, hgrad1⟩ := id hv
  have hyWF : WF c (flMul c x (Fp.fin c.gradToRad)) := flMul_WF hp x _
  have hyfin : isFiniteB (flMul c x (Fp.fin c.gradToRad)) = isFiniteB x := by
    cases x with
    | nan => rfl
    | inf s => rfl
    | zero s => rfl
    | fin q =>
      obtain ⟨hq0, hqr⟩ := hwf
      have habs : |q * c.gradToRad| ≤ maxFinite c := by
        calc |q * c.gradToRad| = |q| * |c.gradToRad| := abs_mul _ _
          _ ≤ |q| * 1 := by
              apply mul_le_mul_of_nonneg_left _ (abs_nonneg q)
              rw [abs_of_pos hgrad0]
              exact le_of_lt hgrad1
          _ = |q| := mul_one _
          _ ≤ maxFinite c := repr_abs_le hqr
      exact (flMul_fin_bound hp (maxFinite_repr hee) habs).1
  exact ⟨from_radians_inRange hv hyWF,
    by rw [show Angle.from_gradians c x =
        Angle.from_radians c (flMul c x (Fp.fin c.gradToRad)) from rfl,
      from_radians_is_nan hv hyWF, hyfin]⟩

theorem from_turns_spec {c : FloatCfg} (hv : Valid c) {x : Fp} (hwf : WF c x) :
    inRange c ((Angle.from_turns c x).radians) ∧
    (Angle.from_turns c x).is_nan = !(isFiniteB x) := by
  have hp : 1 ≤ c.prec := valid_prec_pos hv
  have hpi0 : 0 < c.pi := valid_pi_pos hv
  have htau0 : 0 < c.tau := valid_tau_pos hv
  obtain ⟨-, -, hee, -, htaur, honer, -, -, -, hturn, hone1, -⟩ := id hv
  cases x with
  | nan =>
    unfold Angle.from_turns
    rw [hturn]
    rw [show flRem Fp.nan (Fp.fin c.one) = Fp.nan from rfl]
    rw [show flMul c Fp.nan (Fp.fin c.tau) = Fp.nan from rfl, partially_nan]
    exact ⟨trivial, rfl⟩
  | inf s =>
    unfold Angle.from_turns
    rw [hturn]
    rw [show flRem (Fp.inf s) (Fp.fin c.one) = Fp.nan from rfl]
    rw [show flMul c Fp.nan (Fp.fin c.tau) = Fp.nan from rfl, partially_nan]
    exact ⟨trivial, rfl⟩
  | zero s =>
    unfold Angle.from_turns
    rw [hturn]
    rw [show flRem (Fp.zero s) (Fp.fin c.one) = Fp.zero s from rfl]
    rw [show flMul c (Fp.zero s) (Fp.fin c.tau) =
      Fp.zero (xor s (decide (c.tau < 0))) from rfl]
    rw [partially_zero hpi0]
    exact ⟨trivial, rfl⟩
  | fin q =>
    obtain ⟨hq0, hqr⟩ := hwf
    have hone_ne : c.one ≠ 0 := by
      rw [hone1]
      norm_num
    unfold Angle.from_turns
    rw [hturn, flRem_fin_eq]
    obtain ⟨hb1, hb2⟩ := rem_bound (a := q) hone_ne
    rcases eq_or_ne (q - ((intTrunc (q / c.one) : ℤ) : ℚ) * c.one) 0 with hm0 | hm0
    · rw [if_pos hm0]
      rw [show flMul c (Fp.zero (decide (q < 0))) (Fp.fin c.tau) =
        Fp.zero (xor (decide (q < 0)) (decide (c.tau < 0))) from rfl]
      rw [partially_zero hpi0]
      exact ⟨trivial, rfl⟩
    · rw [if_neg hm0]
      set m := q - ((intTrunc (q / c.one) : ℤ) : ℚ) * c.one with hm
      have hmlt1 : |m| < 1 := by
        rw [hone1] at hb2
        simpa using hb2
      have habs : |m * c.tau| ≤ c.tau := by
        rw [abs_mul, abs_of_pos htau0]
        calc |m| * c.tau ≤ 1 * c.tau :=
              mul_le_mul_of_nonneg_right (le_of_lt hmlt1) (le_of_lt htau0)
          _ = c.tau := one_mul _
      obtain ⟨hfinB, hWFy, hboundy⟩ := flMul_fin_bound hp htaur habs
      rcases finite_cases hfinB with ⟨s, hs⟩ | ⟨w, hw⟩
      · rw [hs, partially_zero hpi0]
        exact ⟨trivial, rfl⟩
      · rw [hw]
        rw [hw] at hWFy hboundy
        obtain ⟨hw0, hwr⟩ := hWFy
        have hwle : |w| ≤ c.tau := by simpa [fval] using hboundy
        obtain ⟨hA, hB, hC, -⟩ := partially_fin_spec hv hwr hw0 hwle
        refine ⟨hA, ?_⟩
        show isNanB ((Angle.from_radians_partially_unchecked c (Fp.fin w)).radians) = !true
        rw [isNanB_of_finite hC]
        rfl

theorem cast64to32_WF (x : Fp) : WF f32Cfg (cast64to32 x) := by
  cases x with
  | fin q => exact rndFp_WF (by decide) q
  | nan => trivial
  | inf s => trivial
  | zero s => trivial

theorem foldl_flAdd_WF {c : FloatCfg} (hp : 1 ≤ c.prec) :
    ∀ (l : List Angle), (∀ a ∈ l, WF c a.radians) → ∀ acc : Fp, WF c acc →
      WF c (l.foldl (fun acc a => flAdd c acc a.radians) acc) := by
  intro l
  induction l with
  | nil =>
    intro _ acc h
    exact h
  | cons a l ih =>
    intro hl acc h
    exact ih (fun b hb => hl b (List.mem_cons_of_mem _ hb)) _
      (flAdd_WF hp h (hl a (List.mem_cons_self _ _)))

theorem neg_pi_case {c : FloatCfg} {a : Angle}
    (h : flEqB a.radians (Fp.fin c.pi) = true) : Angle.neg c a = a := by
  unfold Angle.neg
  rw [if_pos h]

theorem neg_not_pi {c : FloatCfg} {a : Angle}
    (h : flEqB a.radians (Fp.fin c.pi) = false) :
    Angle.neg c a = ⟨fneg a.radians⟩ := by
  unfold Angle.neg
  rw [if_neg (by simp [h])]
  rfl

theorem neg_inRange {c : FloatCfg} {a : Angle} (hin : inRange c a.radians) :
    inRange c ((Angle.neg c a).radians) := by
  obtain ⟨r⟩ := a
  cases hpi : flEqB (Angle.mk r).radians (Fp.fin c.pi) with
  | true => rw [neg_pi_case hpi]; exact hin
  | false =>
    rw [neg_not_pi hpi]
    cases r with
    | nan => trivial
    | inf s => exact hin.elim
    | zero s => trivial
    | fin q =>
      obtain ⟨hl, hr⟩ := hin
      have hqpi : q ≠ c.pi := by
        intro hc
        have : flEqB (Fp.fin q) (Fp.fin c.pi) = true := by
          show decide (q = c.pi) = true
          exact decide_eq_true hc
        rw [this] at hpi
        exact nomatch hpi
      show -c.pi < rneg q ∧ rneg q ≤ c.pi
      rw [rneg_eq]
      constructor
      · have : q < c.pi := lt_of_le_of_ne hr hqpi
        linarith
      · linarith

theorem neg_WF {c : FloatCfg} {a : Angle} (hwf : WF c a.radians) :
    WF c ((Angle.neg c a).radians) := by
  cases hpi : flEqB a.radians (Fp.fin c.pi) with
  | true =>
    rw [neg_pi_case hpi]
    exact hwf
  | false =>
    rw [neg_not_pi hpi]
    exact fneg_WF hwf

theorem angleEq_self {a : Angle} (h : isNanB a.radians = false) : angleEq a a = true := by
  obtain ⟨r⟩ := a
  cases r with
  | nan => exact nomatch h
  | inf s => simp [angleEq, flEqB]
  | zero s => simp [angleEq, flEqB]
  | fin q => simp [angleEq, flEqB]

theorem intTrunc_eq_one {x : ℚ} (h1 : 1 ≤ x) (h2 : x < 2) : intTrunc x = 1 := by
  rw [intTrunc_eq, if_pos (by linarith : (0:ℚ) ≤ x)]
  refine Int.floor_eq_iff.mpr ⟨?_, ?_⟩
  · push_cast
    linarith
  · push_cast
    linarith

theorem intTrunc_eq_negone {x : ℚ} (h1 : -2 < x) (h2 : x ≤ -1) : intTrunc x = -1 := by
  rw [intTrunc_eq, if_neg (by linarith : ¬ (0:ℚ) ≤ x)]
  have hfl : ⌊-x⌋ = 1 := by
    refine Int.floor_eq_iff.mpr ⟨?_, ?_⟩
    · push_cast
      linarith
    · push_cast
      linarith
  rw [hfl]

/-! ### The claims -/

/-- C1: `Angle::from_radians` maps every finite well-formed float to a stored
value in `(-π, π]` that differs from the input by an exact integer multiple of
`τ`, and maps NaN and both infinities to NaN. -/
theorem C1_from_radians_normalizes {c : FloatCfg} (hv : Valid c) {x : Fp}
    (hwf : WF c x) :
    (isFiniteB x = true →
      inRange c ((Angle.from_radians c x).radians) ∧
      ∃ k : ℤ, fval ((Angle.from_radians c x).radians) = fval x - (k : ℚ) * c.tau) ∧
    ((isNanB x = true ∨ x = Fp.inf false ∨ x = Fp.inf true) →
      (Angle.from_radians c x).radians = Fp.nan) := by
  obtain ⟨h1, h2⟩ := from_radians_spec hv hwf
  refine ⟨fun hf => ⟨(h1 hf).1, (h1 hf).2.2.2⟩, fun hn => h2 ?_⟩
  rcases hn with h | h | h
  · cases x with
    | nan => rfl
    | inf s => rfl
    | zero s => exact nomatch h
    | fin q => exact nomatch h
  · rw [h]
    rfl
  · rw [h]
    rfl

set_option maxRecDepth 8000 in
/-- Witness for C1 at the concrete double-precision value π. -/
theorem C1_from_radians_normalizes_witness :
    (isFiniteB (Fp.fin f64Cfg.pi) = true →
      inRange f64Cfg ((Angle.from_radians f64Cfg (Fp.fin f64Cfg.pi)).radians) ∧
      ∃ k : ℤ, fval ((Angle.from_radians f64Cfg (Fp.fin f64Cfg.pi)).radians) =
        fval (Fp.fin f64Cfg.pi) - (k : ℚ) * f64Cfg.tau) ∧
    ((isNanB (Fp.fin f64Cfg.pi) = true ∨ Fp.fin f64Cfg.pi = Fp.inf false ∨
        Fp.fin f64Cfg.pi = Fp.inf true) →
      (Angle.from_radians f64Cfg (Fp.fin f64Cfg.pi)).radians = Fp.nan) :=
  C1_from_radians_normalizes valid_f64
    ⟨by decide, 884279719003555, -48, by decide, by decide, by decide, by decide⟩

/-- C2: every public operation producing an `Angle` yields a stored value that
is NaN or lies in `(-π, π]`: the four unit constructors, conversion from
`AngleUnbounded`, addition, subtraction, scalar multiplication and division,
negation, iterator summation, and the `f64`-to-`f32` narrowing. -/
theorem C2_every_operation_in_range {c : FloatCfg} (hv : Valid c) :
    (∀ x : Fp, WF c x →
      inRange c ((Angle.from_radians c x).radians) ∧
      inRange c ((Angle.from_degrees c x).radians) ∧
      inRange c ((Angle.from_turns c x).radians) ∧
      inRange c ((Angle.from_gradians c x).radians)) ∧
    (∀ u : AngleUnbounded, WF c u.radians →
      inRange c ((Angle.fromUnbounded c u).radians)) ∧
    (∀ a b : Angle, WF c a.radians → WF c b.radians →
      inRange c ((Angle.add c a b).radians) ∧ inRange c ((Angle.sub c a b).radians)) ∧
    (∀ (a : Angle) (s : Fp), WF c a.radians →
      inRange c ((Angle.mulScalar c a s).radians) ∧
      inRange c ((Angle.divScalar c a s).radians)) ∧
    (∀ a : Angle, inRange c a.radians → inRange c ((Angle.neg c a).radians)) ∧
    (∀ l : List Angle, (∀ a ∈ l, WF c a.radians) →
      inRange c ((Angle.sum c l).radians)) ∧
    (∀ a : Angle, inRange f32Cfg ((Angle.to_f32 a).radians)) := by
  have hp : 1 ≤ c.prec := valid_prec_pos hv
  refine ⟨?_, ?_, ?_, ?_, ?_, ?_, ?_⟩
  · intro x hx
    exact ⟨from_radians_inRange hv hx, (from_degrees_spec hv hx).1,
      (from_turns_spec hv hx).1, (from_gradians_spec hv hx).1⟩
  · intro u hu
    exact from_radians_inRange hv hu
  · intro a b ha hb
    unfold Angle.add Angle.sub flSub
    exact ⟨from_radians_inRange hv (flAdd_WF hp ha hb),
      from_radians_inRange hv (flAdd_WF hp ha (fneg_WF hb))⟩
  · intro a s ha
    unfold Angle.mulScalar Angle.divScalar
    exact ⟨from_radians_inRange hv (flMul_WF hp _ _),
      from_radians_inRange hv (flDiv_WF hp _ _)⟩
  · intro a hin
    exact neg_inRange hin
  · intro l hl
    unfold Angle.sum
    exact from_radians_inRange hv (foldl_flAdd_WF hp l hl _ trivial)
  · intro a
    unfold Angle.to_f32
    exact from_radians_inRange valid_f32 (cast64to32_WF a.radians)

/-- Witness for C2: the turns constructor at single precision on `0.0`. -/
theorem C2_every_operation_in_range_witness :
    inRange f32Cfg ((Angle.from_turns f32Cfg (Fp.zero false)).radians) :=
  (((C2_every_operation_in_range valid_f32).1 (Fp.zero false)) trivial).2.2.1

/-- C3 (amended): for the radians, degrees and gradians units, building an
unbounded angle and then normalizing (`to_bounded`) is bit-for-bit the direct
bounded construction, for every input; the turns unit is excluded, because
`Angle::from_turns` reduces by one turn before the unit conversion while the
unbounded route multiplies first, so the two can round differently. -/
theorem C3_unbounded_then_bounded (c : FloatCfg) (x : Fp) :
    (AngleUnbounded.from_radians x).to_bounded c = Angle.from_radians c x ∧
    (AngleUnbounded.from_degrees c x).to_bounded c = Angle.from_degrees c x ∧
    (AngleUnbounded.from_gradians c x).to_bounded c = Angle.from_gradians c x :=
  ⟨rfl, rfl, rfl⟩

/-- C3 counterexample: at 32.5 turns in double precision the unbounded-then-
normalize route and the direct `from_turns` differ (32.5 % 1 = 0.5 turns gives
exactly π, while 32.5·τ rounds before its remainder is taken). -/
theorem C3_turns_counterexample :
    (AngleUnbounded.from_turns f64Cfg (Fp.fin (mkRat 65 2))).to_bounded f64Cfg ≠
      Angle.from_turns f64Cfg (Fp.fin (mkRat 65 2)) := by
  decide

/-- C4: refuted by the code — the canonical single-precision angle at π stores
the f32 value of π, which is strictly greater than the f64 value of π, so the
`debug_assert` inside `Angle::<f32>::to_f64` is false on it and the widened
angle breaks the `(-π, π]` invariant at double precision. -/
theorem C4_widening_assert_fails :
    (Angle.from_radians f32Cfg (Fp.fin f32Cfg.pi)).radians = Fp.fin f32Cfg.pi ∧
    to_f64_assert (Angle.to_f64 (Angle.from_radians f32Cfg (Fp.fin f32Cfg.pi))) = false ∧
    f64Cfg.pi < f32Cfg.pi :=
  ⟨by decide, by decide, by decide⟩

/-- C5 (amended): the derived `PartialEq` of `Angle` compares the stored floats
with IEEE `==`: two well-formed angles are equal iff neither is NaN and either
their stored data are bit-identical or both are zeros — the signed zeros `+0.0`
and `-0.0` compare equal although they are not bit-identical, so plain float
equality is strictly coarser than bit equality on zeros and strictly finer on
NaN. -/
theorem C5_partial_eq {c : FloatCfg} {a b : Angle}
    (ha : WF c a.radians) (hb : WF c b.radians) :
    angleEq a b = true ↔
      (isNanB a.radians = false ∧ isNanB b.radians = false ∧
        (a.radians = b.radians ∨
          ∃ s t, a.radians = Fp.zero s ∧ b.radians = Fp.zero t)) := by
  obtain ⟨ra⟩ := a
  obtain ⟨rb⟩ := b
  cases ra with
  | nan => cases rb <;> simp [angleEq, flEqB, isNanB]
  | inf s =>
    cases rb with
    | nan => simp [angleEq, flEqB, isNanB]
    | inf t => simp [angleEq, flEqB, isNanB]
    | zero t => simp [angleEq, flEqB, isNanB]
    | fin q => simp [angleEq, flEqB, isNanB]
  | zero s =>
    cases rb with
    | nan => simp [angleEq, flEqB, isNanB]
    | inf t => simp [angleEq, flEqB, isNanB]
    | zero t =>
      simp only [angleEq, flEqB, isNanB]
      constructor
      · intro _
        exact ⟨trivial, trivial, Or.inr ⟨s, t, rfl, rfl⟩⟩
      · intro _
        trivial
    | fin q =>
      obtain ⟨hq0, -⟩ := hb
      simp [angleEq, flEqB, isNanB, hq0]
  | fin p =>
    cases rb with
    | nan => simp [angleEq, flEqB, isNanB]
    | inf t => simp [angleEq, flEqB, isNanB]
    | zero t =>
      obtain ⟨hp0, -⟩ := ha
      simp [angleEq, flEqB, isNanB, hp0]
    | fin q => simp [angleEq, flEqB, isNanB]

/-- Witness for C5 at the two signed zeros at single precision. -/
theorem C5_partial_eq_witness :
    angleEq ⟨Fp.zero false⟩ ⟨Fp.zero true⟩ = true ↔
      (isNanB (Fp.zero false) = false ∧ isNanB (Fp.zero true) = false ∧
        ((Fp.zero false : Fp) = Fp.zero true ∨
          ∃ s t, (Fp.zero false : Fp) = Fp.zero s ∧ (Fp.zero true : Fp) = Fp.zero t)) :=
  C5_partial_eq (c := f32Cfg) trivial trivial

/-- C5 counterexample: the angles built from `+0.0` and `-0.0` compare equal
with `==` yet are not bit-identical, refuting "equal iff bit-equal". -/
theorem C5_signed_zero_counterexample :
    angleEq (Angle.from_radians f64Cfg (Fp.zero false))
      (Angle.from_radians f64Cfg (Fp.zero true)) = true ∧
    Angle.from_radians f64Cfg (Fp.zero false) ≠
      Angle.from_radians f64Cfg (Fp.zero true) :=
  ⟨by decide, by decide⟩

/-- C6: π is a fixed point — `from_radians(π) == from_radians(-π)` at both
precisions, negating the angle at π returns it unchanged, and for every other
non-NaN angle negation returns exactly the sign-flipped stored value with no
re-normalization. -/
theorem C6_pi_fixed_point :
    (angleEq (Angle.from_radians f32Cfg (Fp.fin f32Cfg.pi))
      (Angle.from_radians f32Cfg (fneg (Fp.fin f32Cfg.pi))) = true) ∧
    (angleEq (Angle.from_radians f64Cfg (Fp.fin f64Cfg.pi))
      (Angle.from_radians f64Cfg (fneg (Fp.fin f64Cfg.pi))) = true) ∧
    (Angle.neg f32Cfg (Angle.from_radians f32Cfg (Fp.fin f32Cfg.pi)) =
      Angle.from_radians f32Cfg (Fp.fin f32Cfg.pi)) ∧
    (Angle.neg f64Cfg (Angle.from_radians f64Cfg (Fp.fin f64Cfg.pi)) =
      Angle.from_radians f64Cfg (Fp.fin f64Cfg.pi)) ∧
    (∀ (c : FloatCfg) (a : Angle), isNanB a.radians = false →
      flEqB a.radians (Fp.fin c.pi) = false →
      Angle.neg c a = ⟨fneg a.radians⟩) := by
  refine ⟨by decide, by decide, by decide, by decide, ?_⟩
  intro c a _ h
  exact neg_not_pi h

/-- Witness for C6 on the zero angle at single precision. -/
theorem C6_pi_fixed_point_witness :
    Angle.neg f32Cfg ⟨Fp.zero false⟩ = ⟨fneg (Fp.zero false)⟩ :=
  C6_pi_fixed_point.2.2.2.2 f32Cfg ⟨Fp.zero false⟩ rfl (by decide)

/-- C7: for each of the four unit constructors and any valid format, the
result is NaN exactly when the input float is NaN or infinite; every finite
input — however large — produces a non-NaN angle. -/
theorem C7_nan_iff_nonfinite {c : FloatCfg} (hv : Valid c) {x : Fp}
    (hwf : WF c x) :
    (Angle.from_radians c x).is_nan = !(isFiniteB x) ∧
    (Angle.from_degrees c x).is_nan = !(isFiniteB x) ∧
    (Angle.from_turns c x).is_nan = !(isFiniteB x) ∧
    (Angle.from_gradians c x).is_nan = !(isFiniteB x) :=
  ⟨from_radians_is_nan hv hwf, (from_degrees_spec hv hwf).2,
    (from_turns_spec hv hwf).2, (from_gradians_spec hv hwf).2⟩

set_option maxRecDepth 8000 in
/-- Witness for C7 at the largest finite double (`f64::MAX`) in turns and the
most negative finite single (`f32::MIN`) in degrees. -/
theorem C7_nan_iff_nonfinite_witness :
    ((Angle.from_turns f64Cfg (Fp.fin (maxFinite f64Cfg))).is_nan =
      !(isFiniteB (Fp.fin (maxFinite f64Cfg)))) ∧
    ((Angle.from_degrees f32Cfg (Fp.fin (rneg (maxFinite f32Cfg)))).is_nan =
      !(isFiniteB (Fp.fin (rneg (maxFinite f32Cfg))))) :=
  ⟨(C7_nan_iff_nonfinite (x := Fp.fin (maxFinite f64Cfg)) valid_f64
      ⟨by decide, maxFinite_repr (by decide)⟩).2.2.1,
    (C7_nan_iff_nonfinite (x := Fp.fin (rneg (maxFinite f32Cfg))) valid_f32
      ⟨by rw [rneg_eq]; exact neg_ne_zero.mpr (by decide),
        by rw [rneg_eq]; exact repr_neg (maxFinite_repr (by decide))⟩).2.1⟩

/-- C8 (amended): converting to an unbounded angle copies the stored value
bit-for-bit, and for every well-formed canonical angle the round trip
`to_unbounded().to_bounded()` returns the very same angle; the `==` form of the
round trip additionally needs the angle not to be NaN, since IEEE equality is
false on NaN. -/
theorem C8_roundtrip {c : FloatCfg} (hv : Valid c) {a : Angle}
    (hwf : WF c a.radians) (hin : inRange c a.radians) :
    (a.to_unbounded).to_radians = a.to_radians ∧
    (a.to_unbounded).to_bounded c = a ∧
    (isNanB a.radians = false → angleEq ((a.to_unbounded).to_bounded c) a = true) := by
  have h2 : (a.to_unbounded).to_bounded c = a := by
    show Angle.from_radians c a.radians = a
    rw [from_radians_id hv hwf hin]
  refine ⟨rfl, h2, fun hn => ?_⟩
  rw [h2]
  exact angleEq_self hn

/-- Witness for C8 at the zero angle in double precision. -/
theorem C8_roundtrip_witness :
    ((Angle.mk (Fp.zero false)).to_unbounded).to_radians =
      (Angle.mk (Fp.zero false)).to_radians ∧
    ((Angle.mk (Fp.zero false)).to_unbounded).to_bounded f64Cfg =
      Angle.mk (Fp.zero false) ∧
    (isNanB (Angle.mk (Fp.zero false)).radians = false →
      angleEq (((Angle.mk (Fp.zero false)).to_unbounded).to_bounded f64Cfg)
        (Angle.mk (Fp.zero false)) = true) :=
  C8_roundtrip valid_f64 trivial trivial

/-- C8 counterexample: for the NaN angle (produced here from `+∞`) the round
trip compared with `==` is false, refuting the unconditional claim. -/
theorem C8_nan_counterexample :
    angleEq (((Angle.from_radians f64Cfg (Fp.inf false)).to_unbounded).to_bounded f64Cfg)
      (Angle.from_radians f64Cfg (Fp.inf false)) = false := by
  decide

/-- C9 (amended): the single-correction fast path agrees bit-for-bit with the
general remainder algorithm on NaN, on the signed zeros, and on every
well-formed finite value in `(-3π, 3π]` other than `-τ`; it does not agree on
all of `[-2τ, 2τ]` — at `2τ` (see the counterexample) and at `-τ` the two
differ, so the claimed domain is wrong. -/
theorem C9_partially_matches_from_radians {c : FloatCfg} (hv : Valid c) {x : Fp}
    (hwf : WF c x) (hninf : ∀ s, x ≠ Fp.inf s)
    (hdom : ∀ q, x = Fp.fin q → -(3 * c.pi) < q ∧ q ≤ 3 * c.pi ∧ q ≠ -c.tau) :
    Angle.from_radians_partially_unchecked c x = Angle.from_radians c x := by
  have hpi0 : 0 < c.pi := valid_pi_pos hv
  have htau0 : 0 < c.tau := valid_tau_pos hv
  have htau2 : c.tau = 2 * c.pi := by
    obtain ⟨-, -, -, -, -, -, -, -, h, -⟩ := id hv
    exact h
  have hpi2 : 2 < c.pi := by
    obtain ⟨-, -, -, -, -, -, -, -, -, -, -, h, -⟩ := id hv
    exact h
  have htaur : isRepr c c.tau := by
    obtain ⟨-, -, -, -, h, -⟩ := id hv
    exact h
  cases x with
  | nan =>
    rw [partially_nan]
    unfold Angle.from_radians
    rw [show flRem Fp.nan (Fp.fin c.tau) = Fp.nan from rfl, partially_nan]
  | inf s => exact absurd rfl (hninf s)
  | zero s =>
    rw [partially_zero hpi0]
    unfold Angle.from_radians
    rw [show flRem (Fp.zero s) (Fp.fin c.tau) = Fp.zero s from rfl, partially_zero hpi0]
  | fin q =>
    obtain ⟨hq0, hqr⟩ := hwf
    obtain ⟨hd1, hd2, hd3⟩ := hdom q rfl
    unfold Angle.from_radians
    rw [flRem_fin_eq]
    by_cases hcase1 : |q| < c.tau
    · have htr : intTrunc (q / c.tau) = 0 := by
        apply intTrunc_of_abs_lt
        rw [abs_div, abs_of_pos htau0, div_lt_one htau0]
        exact hcase1
      rw [htr]
      have hsimp : q - ((0:ℤ) : ℚ) * c.tau = q := by
        push_cast
        ring
      rw [hsimp, if_neg hq0]
    · push_neg at hcase1
      rcases le_or_lt q 0 with hqneg | hqpos
      · have hqle : q ≤ -c.tau := by
          rw [abs_of_nonpos hqneg] at hcase1
          linarith
        have hqlt : q < -c.tau := lt_of_le_of_ne hqle hd3
        have htr : intTrunc (q / c.tau) = -1 := by
          apply intTrunc_eq_negone
          · rw [lt_div_iff htau0]
            linarith
          · rw [div_le_iff htau0]
            linarith
        rw [htr]
        have hsimp : q - ((-1:ℤ) : ℚ) * c.tau = q + c.tau := by
          push_cast
          ring
        rw [hsimp]
        have hm0 : q + c.tau ≠ 0 := by
          intro hc
          apply hd3
          linarith
        rw [if_neg hm0]
        rw [partially_mid (not_lt.mpr (show q + c.tau ≤ c.pi by linarith))
          (not_le.mpr (show -c.pi < q + c.tau by linarith))]
        rw [partially_low (not_lt.mpr (show q ≤ c.pi by linarith))
          (show q ≤ -c.pi by linarith)]
        have hb1 : |q + c.tau| ≤ |q| := by
          rw [abs_of_neg (show q + c.tau < 0 by linarith),
            abs_of_neg (show q < 0 by linarith)]
          linarith
        have hb2 : |q + c.tau| ≤ |c.tau| := by
          rw [abs_of_neg (show q + c.tau < 0 by linarith), abs_of_pos htau0]
          linarith
        rw [rndFp_exact (add_repr hqr htaur hb1 hb2) hm0]
      · have hqge : c.tau ≤ q := by
          rwa [abs_of_pos hqpos] at hcase1
        have htr : intTrunc (q / c.tau) = 1 := by
          apply intTrunc_eq_one
          · rw [le_div_iff htau0]
            linarith
          · rw [div_lt_iff htau0]
            linarith
        rw [htr]
        have hsimp : q - ((1:ℤ) : ℚ) * c.tau = q - c.tau := by
          push_cast
          ring
        rw [hsimp]
        rcases eq_or_ne (q - c.tau) 0 with hz | hz
        · rw [if_pos hz]
          have hqf : decide (q < 0) = false := decide_eq_false (by linarith)
          rw [hqf, partially_zero hpi0]
          rw [partially_high (show c.pi < q by linarith), hz, rndFp_zero]
        · rw [if_neg hz]
          have hq2 : 0 < q - c.tau := by
            rcases lt_or_eq_of_le (show (0:ℚ) ≤ q - c.tau by linarith) with h | h
            · exact h
            · exact absurd h.symm hz
          rw [partially_mid (not_lt.mpr (show q - c.tau ≤ c.pi by linarith))
            (not_le.mpr (show -c.pi < q - c.tau by linarith))]
          rw [partially_high (show c.pi < q by linarith)]
          have hb1 : |q - c.tau| ≤ |q| := by
            rw [abs_of_pos hq2, abs_of_pos hqpos]
            linarith
          have hb2 : |q - c.tau| ≤ |c.tau| := by
            rw [abs_of_pos hq2, abs_of_pos htau0]
            linarith
          rw [rndFp_exact (sub_repr hqr htaur hb1 hb2) hz]

/-- Witness for C9 on the zero value in double precision. -/
theorem C9_partially_matches_from_radians_witness :
    Angle.from_radians_partially_unchecked f64Cfg (Fp.zero false) =
      Angle.from_radians f64Cfg (Fp.zero false) :=
  C9_partially_matches_from_radians valid_f64 trivial
    (fun s h => Fp.noConfusion h) (fun q hq => Fp.noConfusion hq)

/-- C9 counterexample: the value `2τ` lies in the claimed domain `[-2τ, 2τ]`
but the fast path gives `τ` while the general algorithm gives `+0.0`. -/
theorem C9_two_tau_counterexample :
    rmul (mkRat 2 1) f64Cfg.tau = mkRat 884279719003555 70368744177664 ∧
    Angle.from_radians_partially_unchecked f64Cfg
        (Fp.fin (mkRat 884279719003555 70368744177664)) ≠
      Angle.from_radians f64Cfg (Fp.fin (mkRat 884279719003555 70368744177664)) :=
  ⟨by decide, by decide⟩

/-- C10: negation is an involution at the bit level on every angle satisfying
the canonical-range invariant — NaN, zeros and the fixed point π included. -/
theorem C10_neg_involution {c : FloatCfg} {a : Angle}
    (hin : inRange c a.radians) : Angle.neg c (Angle.neg c a) = a := by
  obtain ⟨r⟩ := a
  cases r with
  | nan =>
    rw [neg_not_pi (show flEqB Fp.nan (Fp.fin c.pi) = false from rfl)]
    show Angle.neg c ⟨Fp.nan⟩ = ⟨Fp.nan⟩
    rw [neg_not_pi (show flEqB Fp.nan (Fp.fin c.pi) = false from rfl)]
    rfl
  | inf s => exact hin.elim
  | zero s =>
    by_cases hpi : c.pi = 0
    · have h : flEqB (Fp.zero s) (Fp.fin c.pi) = true := by
        show decide (c.pi = 0) = true
        exact decide_eq_true hpi
      rw [neg_pi_case h, neg_pi_case h]
    · have h : flEqB (Fp.zero s) (Fp.fin c.pi) = false := by
        show decide (c.pi = 0) = false
        exact decide_eq_false hpi
      rw [neg_not_pi h]
      show Angle.neg c ⟨Fp.zero (!s)⟩ = ⟨Fp.zero s⟩
      have h2 : flEqB (Fp.zero (!s)) (Fp.fin c.pi) = false := by
        show decide (c.pi = 0) = false
        exact decide_eq_false hpi
      rw [neg_not_pi h2]
      show (⟨Fp.zero (!!s)⟩ : Angle) = ⟨Fp.zero s⟩
      rw [Bool.not_not]
  | fin q =>
    obtain ⟨hl, hr⟩ := hin
    by_cases hq : q = c.pi
    · have h : flEqB (Fp.fin q) (Fp.fin c.pi) = true := by
        show decide (q = c.pi) = true
        exact decide_eq_true hq
      rw [neg_pi_case h, neg_pi_case h]
    · have h : flEqB (Fp.fin q) (Fp.fin c.pi) = false := by
        show decide (q = c.pi) = false
        exact decide_eq_false hq
      rw [neg_not_pi h]
      show Angle.neg c ⟨Fp.fin (rneg q)⟩ = ⟨Fp.fin q⟩
      have h2 : flEqB (Fp.fin (rneg q)) (Fp.fin c.pi) = false := by
        show decide (rneg q = c.pi) = false
        apply decide_eq_false
        rw [rneg_eq]
        intro hc
        have hq2 : q = -c.pi := by linarith
        rw [hq2] at hl
        exact absurd hl (lt_irrefl _)
      rw [neg_not_pi h2]
      show (⟨Fp.fin (rneg (rneg q))⟩ : Angle) = ⟨Fp.fin q⟩
      rw [rneg_rneg]

/-- Witness for C10 at the angle π in double precision. -/
theorem C10_neg_involution_witness :
    Angle.neg f64Cfg (Angle.neg f64Cfg ⟨Fp.fin f64Cfg.pi⟩) = ⟨Fp.fin f64Cfg.pi⟩ :=
  C10_neg_involution (c := f64Cfg) (a := ⟨Fp.fin f64Cfg.pi⟩)
    ⟨by rw [← rneg_eq]; decide, le_refl _⟩
